import Mathlib

/-! # Album: a deduplicating photo collection

A shallow embedding of the C++ sources `Photo.hpp`, `AHashStratergy.hpp` and
`Collection.hpp`, followed by theorems about the embedded code.

Modelling conventions.

* `uint64_t` values are `Nat`, reduced modulo `2 ^ 64` wherever the source
  performs arithmetic that can wrap.
* Pixel samples have type `int16_t` in the source.  The only producer of samples
  is the `Photo` constructor, which casts an `unsigned char`; samples are
  therefore `Nat` values and the cast is `% 256`.
* A file system is a function from path to the bytes of the file, `none` when
  the file cannot be opened.
* Behaviour the C++ standard leaves undefined (reading a sample outside the
  pixel vector, reading a variable that was never written, converting an
  out-of-range floating value) is the explicit result `none`, or the error
  `Error.undefined` once it reaches `AddPhoto`.
* What the compiled program does when `generate` reads beyond the end of the
  pixel vector is described by `Collection.AddPhotoReading`: the read is not
  stopped, the bytes it finds are not determined by the program, and the call
  goes on with the key computed from them, which is a parameter.  Only a pixel
  vector without elements has no storage to read from; there the process ends.
  The collections a program can hold (`Reachable`) are those left by such calls.
* A raw `Photo*` held by the index is the position of the owning slot in the
  store (`none` for `nullptr`): slots own their photo through a `unique_ptr`,
  the store only grows, so the address of a photo identifies its slot.
* Memory is unbounded: `reserve` and `push_back` never throw.
-/

namespace Album

/-! ## Photo.hpp -/

/-- Width of the colour channel, `CHANNEL_WIDTH<_T>`. -/
def CHANNEL_WIDTH : Nat := 3

/-- Modulus of `uint64_t` arithmetic. -/
def U64 : Nat := 2 ^ 64

/-- Errors and aborts a call can end in. -/
inductive Error where
  /-- A thrown `std::runtime_error` with its message. -/
  | runtime_error (what : String)
  /-- The `std::out_of_range` thrown by `std::vector::at`. -/
  | out_of_range
  /-- A failed `assert`. -/
  | assertion_failed
  /-- Behaviour that the C++ standard does not define. -/
  | undefined
  deriving DecidableEq, Repr

deriving instance DecidableEq for Except

/-- The data members of `class Photo`. -/
structure Photo where
  /-- Photo filename on the disk. -/
  filename_ : String
  /-- Photo width. -/
  wid : Nat
  /-- Photo height. -/
  hei : Nat
  /-- RGB pixel data, stored contiguously for the entire photo. -/
  pixels_ : List Nat
  deriving DecidableEq, Repr

/-- A file system: the bytes of every file that can be opened. -/
abbrev FileSystem := String → Option (List Nat)

/-- The state of a `std::ifstream` that matters to the constructor: the bytes not
yet consumed, and whether the stream is still `good()` (neither `failbit` nor
`eofbit` is set).  No operation of the constructor clears a state bit, and every
extraction on a stream that is not good is a no-op. -/
structure IfStream where
  /-- Bytes not yet consumed. -/
  buf : List Nat
  /-- The result of `good()`. -/
  good : Bool
  deriving DecidableEq, Repr

/-- The predicate `std::isspace` in the "C" locale. -/
def isspace (c : Nat) : Bool :=
  c == 32 || (9 ≤ c && c ≤ 13)

/-- The predicate `std::isdigit`. -/
def isdigit (c : Nat) : Bool :=
  48 ≤ c && c ≤ 57

/-- Extraction `ifs >> header` into a default-constructed `std::string`.  Leading
white space is skipped, then characters are taken up to the next white space or the
end of the file.  When the stream is not good, or only white space is left, the
string stays empty. -/
def extractString (s : IfStream) : List Nat × IfStream :=
  if s.good then
    let rest := s.buf.dropWhile isspace
    if rest.isEmpty then ([], ⟨[], false⟩)
    else
      let after := rest.dropWhile (fun c => !isspace c)
      (rest.takeWhile (fun c => !isspace c), ⟨after, !after.isEmpty⟩)
  else ([], ⟨s.buf, false⟩)

/-- Value of a sequence of decimal digit characters. -/
def digitsValue (ds : List Nat) : Nat :=
  ds.foldl (fun acc d => 10 * acc + (d - 48)) 0

/-- Extraction `ifs >> w` into an uninitialised `uint64_t`.  The result is `none`
when the variable is left unwritten (the stream was not good, or only white space
was left).  Otherwise an optional sign and decimal digits are consumed: without
digits the value `0` is stored and the stream fails, a magnitude beyond the range
stores the largest value and the stream fails, and a minus sign negates modulo
`2 ^ 64`. -/
def extractUInt64 (s : IfStream) : Option Nat × IfStream :=
  if s.good then
    let rest := s.buf.dropWhile isspace
    if rest.isEmpty then (none, ⟨[], false⟩)
    else
      let negative := rest.head? == some 45
      let signed := negative || rest.head? == some 43
      let body := if signed then rest.tail else rest
      let ds := body.takeWhile isdigit
      let after := body.dropWhile isdigit
      if ds.isEmpty then (some 0, ⟨after, false⟩)
      else if U64 ≤ digitsValue ds then (some (U64 - 1), ⟨after, false⟩)
      else if negative then (some ((U64 - digitsValue ds) % U64), ⟨after, !after.isEmpty⟩)
      else (some (digitsValue ds), ⟨after, !after.isEmpty⟩)
  else (none, ⟨s.buf, false⟩)

/-- The loop of `ifs.ignore(n, delim)` on a good stream: characters are discarded
until `n` were discarded, the delimiter was discarded, or the file ended. -/
def ignoreLoop (delim : Nat) : Nat → List Nat → IfStream
  | 0, buf => ⟨buf, true⟩
  | _ + 1, [] => ⟨[], false⟩
  | n + 1, c :: rest => if c = delim then ⟨rest, true⟩ else ignoreLoop delim n rest

/-- The call `ifs.ignore(n, delim)`. -/
def ignore (n delim : Nat) (s : IfStream) : IfStream :=
  if s.good then ignoreLoop delim n s.buf else ⟨s.buf, false⟩

/-- The call `ifs.read(pixel, CHANNEL_WIDTH)` on the three-byte buffer `pixel`,
whose bytes are `none` while they were never written.  The bytes that are
available are stored at the front of the buffer; when fewer than
`CHANNEL_WIDTH` are available the stream fails and the rest of the buffer keeps
its content. -/
def read (pixel : List (Option Nat)) (s : IfStream) : List (Option Nat) × IfStream :=
  if s.good then
    let got := s.buf.take CHANNEL_WIDTH
    ((got.map some) ++ pixel.drop got.length,
      ⟨s.buf.drop CHANNEL_WIDTH, got.length == CHANNEL_WIDTH⟩)
  else (pixel, ⟨s.buf, false⟩)

/-- The inner loop `pixels_.push_back(static_cast<value_type>(pixel[j]))`: the
samples pushed for one pixel, `none` when a byte of the buffer was never
written. -/
def pushPixel : List (Option Nat) → Option (List Nat)
  | [] => some []
  | none :: _ => none
  | some b :: rest =>
    match pushPixel rest with
    | none => none
    | some out => some (b % 256 :: out)

/-- The loop `for (i = 0; i < dimensions; ++i)` of the constructor: the samples
pushed onto `pixels_` by `dimensions` iterations, in order. -/
def readPixels : Nat → List (Option Nat) → IfStream → Option (List Nat)
  | 0, _, _ => some []
  | n + 1, pixel, s =>
    match read pixel s with
    | (pixel', s') =>
      match pushPixel pixel' with
      | none => none
      | some px =>
        match readPixels n pixel' s' with
        | none => none
        | some rest => some (px ++ rest)

/-- The constructor `Photo::Photo(std::string inputfile)`. -/
def Photo.ctor (fs : FileSystem) (inputfile : String) : Except Error Photo :=
  match fs inputfile with
  | none => .error (.runtime_error ("Failed to open file: " ++ inputfile))
  | some bytes =>
    let header := extractString ⟨bytes, true⟩
    if header.1 ≠ [80, 54] then
      .error (.runtime_error ("Unable to read file:" ++ inputfile))
    else
      let rw := extractUInt64 header.2
      let rh := extractUInt64 rw.2
      let rb := extractUInt64 rh.2
      match rw.1, rh.1 with
      | some w, some h =>
        let dimensions := (w * h) % U64
        match readPixels dimensions [none, none, none] (ignore 256 10 rb.2) with
        | none => .error .undefined
        | some px => .ok ⟨inputfile, w, h, px⟩
      | _, _ => .error .undefined

/-- The accessor `GetWidth`. -/
def Photo.GetWidth (p : Photo) : Nat := p.wid

/-- The accessor `GetHeight`. -/
def Photo.GetHeight (p : Photo) : Nat := p.hei

/-- The accessor `GetFileName`. -/
def Photo.GetFileName (p : Photo) : String := p.filename_

/-- The characters that `ofs << n` writes for a `uint64_t` in the "C" locale: the
decimal digits of `n`, most significant first. -/
def decimal (n : Nat) : List Nat :=
  if n = 0 then [48] else (Nat.digits 10 n).reverse.map (fun d => 48 + d)

/-- The inner loop of `save` for pixel `i`, with `k` iterations left at channel `j`:
`ofs << static_cast<unsigned char>(pixels_[CHANNEL_WIDTH * i + j])`.  An element
outside the vector is undefined.  A vector has fewer than `2 ^ 62` elements, so
that the first position outside it is reached before the index can wrap. -/
def savePixel (pixels : List Nat) (i : Nat) : Nat → Nat → Option (List Nat)
  | 0, _ => some []
  | k + 1, j =>
    match pixels[CHANNEL_WIDTH * i + j]? with
    | none => none
    | some v =>
      match savePixel pixels i k (j + 1) with
      | none => none
      | some rest => some (v % 256 :: rest)

/-- The outer loop `for (i = 0; i < dimensions; ++i)` of `save`, with `n`
iterations left at pixel `i`: the bytes written, in order. -/
def savePixels (pixels : List Nat) : Nat → Nat → Option (List Nat)
  | 0, _ => some []
  | n + 1, i =>
    match savePixel pixels i CHANNEL_WIDTH 0 with
    | none => none
    | some px =>
      match savePixels pixels n (i + 1) with
      | none => none
      | some rest => some (px ++ rest)

/-- The method `Photo::save`, with the file system it leaves behind; `writable`
tells which paths can be opened for writing.  A photo with a zero dimension is not
written at all. -/
def Photo.save (writable : String → Bool) (fs : FileSystem) (p : Photo)
    (outputfile : String) : Except Error Unit × FileSystem :=
  if p.wid ≠ 0 ∧ p.hei ≠ 0 then
    if writable outputfile then
      match savePixels p.pixels_ ((p.wid * p.hei) % U64) 0 with
      | none => (.error .undefined, fs)
      | some data =>
        (.ok (), fun path =>
          if path = outputfile then
            some ([80, 54, 10] ++ decimal p.wid ++ [32] ++ decimal p.hei
              ++ [10, 50, 53, 53, 10] ++ data)
          else fs path)
    else (.error (.runtime_error ("Failed to open output file: " ++ outputfile)), fs)
  else (.ok (), fs)

/-- The friend `operator==` of `Photo`. -/
def Photo.eq (i_lhs i_rhs : Photo) : Bool :=
  if i_lhs.GetWidth ≠ i_rhs.GetWidth then false
  else if i_lhs.GetHeight ≠ i_rhs.GetHeight then false
  else i_lhs.pixels_ == i_rhs.pixels_

/-! ## AHashStratergy.hpp -/

/-- Width of the scaled photo, `PhotoLite::wid()`. -/
def PhotoLite.wid : Nat := 8

/-- Height of the scaled photo, `PhotoLite::hei()`. -/
def PhotoLite.hei : Nat := 8

/-- The call `std::accumulate(first, last, init)` with a `uint64_t` accumulator.
The iterator `first` is the part of the pixel vector from its position on, and the
second argument is the distance `last - first`.  Dereferencing an iterator at or
past the end of the vector is undefined. -/
def accumulate : List Nat → Nat → Nat → Option Nat
  | _, 0, init => some init
  | [], _ + 1, _ => none
  | x :: rest, n + 1, init => accumulate rest n ((init + x) % U64)

/-- Conversion of a non-negative truncated quotient to `value_type = int16_t`: the
conversion of a floating value outside the range of the target is undefined. -/
def toValueType (q : Nat) : Option Nat :=
  if q < 2 ^ 15 then some q else none

/-- The pairs `(start, finish)` of the iterations of the first loop of `generate`:
`k` iterations are left, each followed by `start += length, finish += length`. -/
def segments (length : Nat) : Nat → Nat → Nat → List (Nat × Nat)
  | 0, _, _ => []
  | k + 1, start, finish =>
    (start, finish) :: segments length k ((start + length) % U64) ((finish + length) % U64)

/-- One iteration of the first loop of `generate`:
`pixel = std::accumulate(begin, end, uint64_t{0}) / double(length)`.
The quotient is computed in `double` and truncated by the assignment to `int16_t`.
A sum below `2 ^ 53` is converted exactly, and its correctly rounded quotient by
`192` is less than `1 / 192` away from the exact quotient, which is an integer or at
least `1 / 192` below the next one: truncation gives the integer quotient.  A
quotient of `2 ^ 15` or more, which every larger sum has, is outside the range of
`int16_t`, and its conversion is undefined.  An iterator range whose end precedes
its start is undefined as well. -/
def cell (pixels : List Nat) (length : Nat) (seg : Nat × Nat) : Option Nat :=
  if seg.2 < seg.1 then none
  else
    match accumulate (pixels.drop seg.1) (seg.2 - seg.1) 0 with
    | none => none
    | some sum => toValueType (sum / length)

/-- The first loop of `generate` over the cells of the scaled photo. -/
def fillCells (pixels : List Nat) (length : Nat) : List (Nat × Nat) → Option (List Nat)
  | [] => some []
  | seg :: rest =>
    match cell pixels length seg with
    | none => none
    | some pixel =>
      match fillCells pixels length rest with
      | none => none
      | some cells => some (pixel :: cells)

/-- The second loop of `generate`: `bitset.set(itr++, isgreater(pixel))`. -/
def setLoop (average : Nat) : List Nat → Nat → List Bool → List Bool
  | [], _, bitset => bitset
  | pixel :: rest, itr, bitset =>
    setLoop average rest (itr + 1) (bitset.set itr (decide (pixel > average)))

/-- The conversion `std::bitset::to_ullong`: position `0` is the least significant
bit. -/
def to_ullong (bitset : List Bool) : Nat :=
  bitset.foldr Nat.bit 0

/-- The method `AHashStrategy::generate`; `none` as argument is the null pointer.
The average of the cells is a quotient of a sum of `int16_t` values by their
number, so that it fits `value_type` unchanged. -/
def AHashStrategy.generate (photoPtr : Option Photo) : Option Nat :=
  match photoPtr with
  | none => some 0
  | some photo =>
    let length := (CHANNEL_WIDTH * PhotoLite.wid * PhotoLite.hei) % U64
    match fillCells photo.pixels_ length
        (segments length (PhotoLite.wid * PhotoLite.hei) 0 length) with
    | none => none
    | some cells =>
      let average := (cells.foldl (fun acc x => (acc + x) % U64) 0) / cells.length
      some (to_ullong
        (setLoop average cells 0 (List.replicate (PhotoLite.wid * PhotoLite.hei) false)))

/-- The method `Photo::hashKey`, which passes `this` to the strategy. -/
def Photo.hashKey (p : Photo) : Option Nat :=
  AHashStrategy.generate (some p)

/-! ## Collection.hpp -/

/-- The type `raw_ptr_type = Photo*`: `none` is the null pointer, `some i` the
address of the photo owned by slot `i` of the store. -/
abbrev RawPtr := Option Nat

/-- The type `map_type = std::unordered_map<uint64_t, list_type>`, as the list of
its entries. -/
abbrev PhotoMap := List (Nat × List RawPtr)

/-- The data members of `class Collection`; a slot of the store is a
`unique_ptr`, which may be null. -/
structure Collection where
  /-- Vector storing photo objects for quick access. -/
  photoVec_ : List (Option Photo)
  /-- Index from hash key to the photos with that key. -/
  photoMap_ : PhotoMap
  deriving DecidableEq, Repr

/-- A default-constructed collection. -/
def Collection.empty : Collection := ⟨[], []⟩

/-- The lookup `photoMap_.find(key)`: the bucket of the entry found, `none` for
`photoMap_.end()`. -/
def mapFind (m : PhotoMap) (key : Nat) : Option (List RawPtr) :=
  match m with
  | [] => none
  | (k, bucket) :: rest => if k = key then some bucket else mapFind rest key

/-- The assignment `photoMap_[key] = list`: the entry of `key` is overwritten, and
created first when there is none. -/
def mapAssign (m : PhotoMap) (key : Nat) (list : List RawPtr) : PhotoMap :=
  match m with
  | [] => [(key, list)]
  | (k, bucket) :: rest =>
    if k = key then (k, list) :: rest else (k, bucket) :: mapAssign rest key list

/-- The call `it->second.push_back(p)` for the iterator `it` that
`photoMap_.find(key)` returned. -/
def mapPushBack (m : PhotoMap) (key : Nat) (p : RawPtr) : PhotoMap :=
  match m with
  | [] => []
  | (k, bucket) :: rest =>
    if k = key then (k, bucket ++ [p]) :: rest else (k, bucket) :: mapPushBack rest key p

/-- The expression `photoVec_.back().get()`. -/
def backGet (vec : List (Option Photo)) : RawPtr :=
  match vec.getLast? with
  | some (some _) => some (vec.length - 1)
  | _ => none

/-- The loop `for (auto const& p : it->second) if (p && *p == *photo) return false;`
of `AddPhoto`: `some true` when the loop returns from the function, `some false`
when it runs to its end, and `none` when a pointer that owns no photo is
dereferenced. -/
def scanBucket (vec : List (Option Photo)) (photo : Photo) : List RawPtr → Option Bool
  | [] => some false
  | none :: rest => scanBucket vec photo rest
  | some i :: rest =>
    match vec[i]? with
    | some (some q) => if Photo.eq q photo then some true else scanBucket vec photo rest
    | _ => none

/-- The method `Collection::albumSize`. -/
def Collection.albumSize (c : Collection) : Nat :=
  c.photoVec_.length

/-- The method `Collection::GetPhoto`, with the collection it leaves behind.
`std::vector::at` throws for a position outside the store and the assertion fails
on a null slot. -/
def Collection.GetPhoto (c : Collection) (index : Nat) : Except Error Photo × Collection :=
  match c.photoVec_[index]? with
  | none => (.error .out_of_range, c)
  | some none => (.error .assertion_failed, c)
  | some (some photo) => (.ok photo, c)

/-- The method `Collection::AddPhoto`, with the collection it leaves behind.  The
test `photo == nullptr` never holds because `std::make_unique` returns an owning
pointer or throws.  An error result carries the collection as it was when the
error arose. -/
def Collection.AddPhoto (fs : FileSystem) (c : Collection) (filename : String) :
    Except Error Bool × Collection :=
  match Photo.ctor fs filename with
  | .error e => (.error e, c)
  | .ok photo =>
    match photo.hashKey with
    | none => (.error .undefined, c)
    | some key =>
      match mapFind c.photoMap_ key with
      | none =>
        let vec := c.photoVec_ ++ [some photo]
        (.ok true, ⟨vec, mapAssign c.photoMap_ key [backGet vec]⟩)
      | some bucket =>
        match scanBucket c.photoVec_ photo bucket with
        | none => (.error .undefined, c)
        | some true => (.ok false, c)
        | some false =>
          let vec := c.photoVec_ ++ [some photo]
          (.ok true, ⟨vec, mapPushBack c.photoMap_ key (backGet vec)⟩)

/-- The statements of `AddPhoto` that follow `uint64_t key { photo->hashKey(..) };`,
for the value `key` that the call gave: the lookup of the bucket, the scan of the
bucket for an equal photo, and the two places that store the photo. -/
def Collection.AddPhotoWithKey (c : Collection) (photo : Photo) (key : Nat) :
    Except Error Bool × Collection :=
  match mapFind c.photoMap_ key with
  | none =>
    let vec := c.photoVec_ ++ [some photo]
    (.ok true, ⟨vec, mapAssign c.photoMap_ key [backGet vec]⟩)
  | some bucket =>
    match scanBucket c.photoVec_ photo bucket with
    | none => (.error .undefined, c)
    | some true => (.ok false, c)
    | some false =>
      let vec := c.photoVec_ ++ [some photo]
      (.ok true, ⟨vec, mapPushBack c.photoMap_ key (backGet vec)⟩)

/-- A call of `AddPhoto` in the compiled program.  `generate` has no test of the
number of samples, so a read beyond the end of the pixel vector is not stopped:
the bytes found behind the storage of the vector are not determined by the
program, `generate` returns the 64-bit key computed from them, for which `read`
stands, and the call goes on with that key.  A pixel vector without elements has
no storage (`reserve(0)` allocates nothing and `begin()` is a null pointer): the
read through it ends the process and the call has no result, which is marked by
`Error.undefined`.  When every read is inside the vector the call is that of
`AddPhoto`. -/
def Collection.AddPhotoReading (read : Nat) (fs : FileSystem) (c : Collection)
    (filename : String) : Except Error Bool × Collection :=
  match Photo.ctor fs filename with
  | .error e => (.error e, c)
  | .ok photo =>
    match photo.hashKey with
    | some key => c.AddPhotoWithKey photo key
    | none =>
      if photo.pixels_.isEmpty then (.error .undefined, c)
      else c.AddPhotoWithKey photo (read % U64)

/-- The collections a program can hold: the empty one, and the ones left behind by
calls of `AddPhoto` that come to an end (by a return or by a thrown exception),
whatever files are on disk at each call and whatever a read beyond the end of a
pixel vector finds. -/
inductive Reachable : Collection → Prop where
  | empty : Reachable Collection.empty
  | add (read : Nat) (fs : FileSystem) (filename : String) {c : Collection} :
      Reachable c → (Collection.AddPhotoReading read fs c filename).1 ≠ .error .undefined →
      Reachable (Collection.AddPhotoReading read fs c filename).2

/-! ## Store and index -/

/-- All pointers held by the index, bucket after bucket. -/
def Collection.refs (c : Collection) : List RawPtr :=
  c.photoMap_.flatMap Prod.snd

/-- The agreement of store and index that `AddPhoto` maintains. -/
structure Collection.Inv (c : Collection) : Prop where
  /-- No slot of the store is null. -/
  slots : ∀ i, i < c.photoVec_.length → ∃ photo, c.photoVec_[i]? = some (some photo)
  /-- The index has one entry per key. -/
  keys : (c.photoMap_.map Prod.fst).Nodup
  /-- The pointers of the index are the addresses of the slots, each once. -/
  perm : c.refs.Perm ((List.range c.photoVec_.length).map some)
  /-- The samples of a stored photo are values of an `unsigned char`. -/
  bounded : ∀ (i : Nat) (photo : Photo), c.photoVec_[i]? = some (some photo) →
    ∀ x ∈ photo.pixels_, x ≤ 255
  /-- A pointer to a photo that has a hash key lies in the bucket of that key. -/
  keyed : ∀ key bucket, (key, bucket) ∈ c.photoMap_ → ∀ i, some i ∈ bucket →
    ∃ photo, c.photoVec_[i]? = some (some photo) ∧ ∀ k, photo.hashKey = some k → k = key
  /-- Photos that have a hash key and lie in different slots are not equal. -/
  dedup : ∀ (i j : Nat) (a b : Photo), c.photoVec_[i]? = some (some a) →
    c.photoVec_[j]? = some (some b) → a.hashKey ≠ none → Photo.eq a b = true → i = j

/-! ## The reads of `generate` -/

/-- The segments that `generate` hands to its first loop: the pairs
`(start, finish)` for `length = CHANNEL_WIDTH * wid() * hei()` and one iteration per
cell of the scaled photo. -/
def generateSegments : List (Nat × Nat) :=
  segments ((CHANNEL_WIDTH * PhotoLite.wid * PhotoLite.hei) % U64)
    (PhotoLite.wid * PhotoLite.hei) 0 ((CHANNEL_WIDTH * PhotoLite.wid * PhotoLite.hei) % U64)

/-- The sample positions that the first loop of `generate` dereferences, in the
order of the reads: `std::accumulate` visits `begin() + start` up to, and not
including, `begin() + finish`. -/
def readIndices : List Nat :=
  generateSegments.flatMap (fun seg => List.range' seg.1 (seg.2 - seg.1))

/-! ## The statements of the specification, in its own words -/

/-- Cell value `c_i` of the specification: the sum of the samples
`192 * i .. 192 * i + 191` divided by `192`, rounded down. -/
def specCell (pixels : List Nat) (i : Nat) : Nat :=
  ((List.range 192).map (fun j => pixels.getD (192 * i + j) 0)).sum / 192

/-- Overall mean `m` of the specification: the sum `c_0 + ... + c_63` divided by
`64`, rounded down. -/
def specMean (pixels : List Nat) : Nat :=
  ((List.range 64).map (specCell pixels)).sum / 64

/-! ## Example inputs -/

/-- A 65 by 64 image whose samples are all `0`. -/
def widePhoto : Photo := ⟨"wide.ppm", 65, 64, List.replicate 12480 0⟩

/-- An 8 by 8 image whose samples are all `0`. -/
def eightPhoto : Photo := ⟨"eight.ppm", 8, 8, List.replicate 192 0⟩

/-- The header `"P6\n64 64\n255\n"` of a 64 by 64 image file. -/
def ppm64Header : List Nat := [80, 54, 10, 54, 52, 32, 54, 52, 10, 50, 53, 53, 10]

/-- A 64 by 64 image whose samples all have the value `v`. -/
def flatPhoto (filename : String) (v : Nat) : Photo :=
  ⟨filename, 64, 64, List.replicate 12288 v⟩

/-- A file system with a single file `"tiny.ppm"`, the 1 by 1 image
`"P6\n1 1\n255\n"` followed by the three samples `1 2 3`. -/
def tinyFs : FileSystem := fun path =>
  if path = "tiny.ppm" then some [80, 54, 10, 49, 32, 49, 10, 50, 53, 53, 10, 1, 2, 3] else none

/-- The photo that the constructor builds from `"tiny.ppm"` of `tinyFs`. -/
def tinyPhoto : Photo := ⟨"tiny.ppm", 1, 1, [1, 2, 3]⟩

/-- A file system with two 64 by 64 images: `"a.ppm"` has all samples `0`, every
other path all samples `1`. -/
def twoFs : FileSystem := fun path =>
  if path = "a.ppm" then some (ppm64Header ++ List.replicate 12288 0)
  else some (ppm64Header ++ List.replicate 12288 1)

/-- The collection that holds `"a.ppm"` of `twoFs`, whose hash key is `0`. -/
def oneColl : Collection :=
  ⟨[some (flatPhoto "a.ppm" 0)], [(0, [some 0])]⟩

/-- The collection that holds `"a.ppm"` and `"b.ppm"` of `twoFs`, which share the
hash key `0`. -/
def twoColl : Collection :=
  ⟨[some (flatPhoto "a.ppm" 0), some (flatPhoto "b.ppm" 1)], [(0, [some 0, some 1])]⟩

/-- A file system with a single file `"trunc.ppm"`: the header `"P6\n2 1\n255\n"`
of a 2 by 1 image followed by the four bytes `1 2 3 4`, two fewer than the header
announces. -/
def truncFs : FileSystem := fun path =>
  if path = "trunc.ppm" then some [80, 54, 10, 50, 32, 49, 10, 50, 53, 53, 10, 1, 2, 3, 4]
  else none

/-- A file system with a single file `"zero.ppm"`: the header `"P6\n0 0\n255\n"`
of an image without pixels. -/
def zeroFs : FileSystem := fun path =>
  if path = "zero.ppm" then some [80, 54, 10, 48, 32, 48, 10, 50, 53, 53, 10] else none

/-- The photo that the constructor builds from `"zero.ppm"` of `zeroFs`. -/
def zeroPhoto : Photo := ⟨"zero.ppm", 0, 0, []⟩

/-- A file system with a single file `"huge.ppm"`: the header
`"P6\n4294967296 4294967296\n255\n"`, whose dimensions multiply to `2 ^ 64`. -/
def hugeFs : FileSystem := fun path =>
  if path = "huge.ppm" then
    some [80, 54, 10, 52, 50, 57, 52, 57, 54, 55, 50, 57, 54, 32,
      52, 50, 57, 52, 57, 54, 55, 50, 57, 54, 10, 50, 53, 53, 10]
  else none

/-! ## Closed forms used in the proofs -/

/-- The value the first loop stores in cell `i` when the segment lies inside the
pixel vector. -/
def segMean (pixels : List Nat) (i : Nat) : Nat :=
  ((pixels.drop (192 * i)).take 192).sum / 192

/-- The digest of an image with enough samples, computed from the cell values
`segMean`. -/
def bigDigest (pixels : List Nat) : Nat :=
  to_ullong (((List.range 64).map (segMean pixels)).map
    (fun pixel => decide (pixel > ((List.range 64).map (segMean pixels)).sum / 64)))

/-! ## Lemmas on `generate` -/

theorem U64_pos : 0 < U64 := by decide

theorem accumulate_eq_some (xs : List Nat) :
    ∀ n init : Nat, n ≤ xs.length → init < U64 →
      accumulate xs n init = some ((init + (xs.take n).sum) % U64) := by
  induction xs with
  | nil =>
    intro n init hn hi
    have h0 : n = 0 := by simpa using hn
    subst h0
    simp [accumulate, Nat.mod_eq_of_lt hi]
  | cons x rest ih =>
    intro n init hn hi
    cases n with
    | zero => simp [accumulate, Nat.mod_eq_of_lt hi]
    | succ n =>
      have hn' : n ≤ rest.length := by simpa using hn
      have hlt : (init + x) % U64 < U64 := Nat.mod_lt _ U64_pos
      rw [accumulate, ih n _ hn' hlt]
      simp only [List.take_succ_cons, List.sum_cons, Nat.mod_add_mod, Nat.add_assoc]

theorem accumulate_eq_none (xs : List Nat) :
    ∀ n init : Nat, xs.length < n → accumulate xs n init = none := by
  induction xs with
  | nil =>
    intro n init hn
    cases n with
    | zero => simp at hn
    | succ n => rfl
  | cons x rest ih =>
    intro n init hn
    cases n with
    | zero => simp at hn
    | succ n =>
      have hn' : rest.length < n := by simpa using hn
      rw [accumulate, ih n _ hn']

theorem sum_le_of_bounded (xs : List Nat) (b : Nat) (h : ∀ x ∈ xs, x ≤ b) :
    xs.sum ≤ xs.length * b := by
  induction xs with
  | nil => simp
  | cons x rest ih =>
    have hx : x ≤ b := h x (List.mem_cons_self _ _)
    have hr : rest.sum ≤ rest.length * b := ih (fun y hy => h y (List.mem_cons_of_mem _ hy))
    simp only [List.sum_cons, List.length_cons, Nat.succ_mul]
    omega

theorem segment_sum_le (pixels : List Nat) (s n : Nat) (hb : ∀ x ∈ pixels, x ≤ 255) :
    ((pixels.drop s).take n).sum ≤ n * 255 := by
  have h1 : ∀ x ∈ (pixels.drop s).take n, x ≤ 255 := fun x hx =>
    hb x (List.mem_of_mem_drop (List.mem_of_mem_take hx))
  have h2 := sum_le_of_bounded _ 255 h1
  have h3 : ((pixels.drop s).take n).length ≤ n := by simp
  calc ((pixels.drop s).take n).sum ≤ ((pixels.drop s).take n).length * 255 := h2
    _ ≤ n * 255 := Nat.mul_le_mul_right _ h3

/-- The value of an iteration of the first loop on a segment inside the pixel
vector. -/
theorem cell_eq_some (pixels : List Nat) (i : Nat) (hlen : 192 * i + 192 ≤ pixels.length)
    (hb : ∀ x ∈ pixels, x ≤ 255) :
    cell pixels 192 (192 * i, 192 * i + 192)
      = some (((pixels.drop (192 * i)).take 192).sum / 192) := by
  have hsum := segment_sum_le pixels (192 * i) 192 hb
  have hn : 192 ≤ (pixels.drop (192 * i)).length := by simp; omega
  have hacc := accumulate_eq_some (pixels.drop (192 * i)) 192 0 hn U64_pos
  have hmod : (0 + ((pixels.drop (192 * i)).take 192).sum) % U64
      = ((pixels.drop (192 * i)).take 192).sum := by
    rw [Nat.zero_add]
    apply Nat.mod_eq_of_lt
    have : (192 * 255 : Nat) < U64 := by decide
    omega
  rw [hmod] at hacc
  have hq : ((pixels.drop (192 * i)).take 192).sum / 192 < 2 ^ 15 := by
    have : ((pixels.drop (192 * i)).take 192).sum / 192 ≤ 255 := by
      apply Nat.div_le_of_le_mul
      omega
    omega
  have hsub : 192 * i + 192 - 192 * i = 192 := by omega
  have hnot : ¬ (192 * i + 192 < 192 * i) := by omega
  simp only [cell, hnot, if_false, hsub, hacc, toValueType, hq, if_true]

theorem trunc_double_quotient_aux (q r : Nat) (y : ℚ) (hr : r < 192) (hq : q ≤ 255)
    (hexact : r = 0 → y = (q : ℚ))
    (herr : |y - ((q : ℚ) + (r : ℚ) / 192)| ≤ ((q : ℚ) + (r : ℚ) / 192) * (1 / 2 ^ 53)) :
    ⌊y⌋ = (q : ℤ) := by
  by_cases h0 : r = 0
  · rw [hexact h0]
    exact Int.floor_natCast q
  · have hr1 : (1 : ℚ) ≤ (r : ℚ) := by exact_mod_cast Nat.one_le_iff_ne_zero.mpr h0
    have hr2 : (r : ℚ) ≤ 191 := by exact_mod_cast Nat.lt_succ_iff.mp hr
    have hq' : (q : ℚ) ≤ 255 := by exact_mod_cast hq
    have hq0 : (0 : ℚ) ≤ (q : ℚ) := Nat.cast_nonneg _
    obtain ⟨h1, h2⟩ := abs_le.mp herr
    have he : ((q : ℚ) + (r : ℚ) / 192) * (1 / 2 ^ 53) ≤ 256 * (1 / 2 ^ 53) := by
      apply mul_le_mul_of_nonneg_right _ (by positivity)
      linarith
    have hsmall : (256 : ℚ) * (1 / 2 ^ 53) < 1 / 192 := by norm_num
    rw [Int.floor_eq_iff]
    push_cast
    constructor
    · linarith
    · linarith

/-- The truncation of a quotient computed in `double`.  Let `y` be a value that
equals the quotient of `s` by `192` when that quotient is an integer, and that is
otherwise within the relative error `2 ^ -53` of it, as the correctly rounded
binary64 quotient is.  Then, for `s` at most `192 * 255`, the integer part of `y`
is the integer quotient. -/
theorem trunc_double_quotient (s : Nat) (y : ℚ) (hs : s ≤ 192 * 255)
    (hexact : 192 ∣ s → y = (s : ℚ) / 192)
    (herr : |y - (s : ℚ) / 192| ≤ (s : ℚ) / 192 * (1 / 2 ^ 53)) :
    ⌊y⌋ = ((s / 192 : Nat) : ℤ) := by
  obtain ⟨q, r, hq, hr⟩ : ∃ q r : Nat, s = 192 * q + r ∧ r < 192 :=
    ⟨s / 192, s % 192, (Nat.div_add_mod s 192).symm, Nat.mod_lt _ (by decide)⟩
  have hdiv : s / 192 = q := by omega
  have hx : (s : ℚ) / 192 = (q : ℚ) + (r : ℚ) / 192 := by
    rw [hq]
    push_cast
    field_simp
    ring
  rw [hdiv]
  rw [hx] at herr hexact
  apply trunc_double_quotient_aux q r y hr (by omega) _ herr
  intro h0
  have h := hexact (by rw [hq, h0]; exact Dvd.intro q rfl)
  rw [h, h0]
  simp

/-- The first loop stores the truncated `double` quotient: any value `y` with the
two properties of the correctly rounded quotient of the segment sum by `192` has
the cell value as its integer part. -/
theorem cell_eq_trunc_double (pixels : List Nat) (i : Nat)
    (hlen : 192 * i + 192 ≤ pixels.length) (hb : ∀ x ∈ pixels, x ≤ 255) (y : ℚ)
    (hexact : 192 ∣ ((pixels.drop (192 * i)).take 192).sum →
      y = ((((pixels.drop (192 * i)).take 192).sum : Nat) : ℚ) / 192)
    (herr : |y - ((((pixels.drop (192 * i)).take 192).sum : Nat) : ℚ) / 192|
      ≤ ((((pixels.drop (192 * i)).take 192).sum : Nat) : ℚ) / 192 * (1 / 2 ^ 53)) :
    cell pixels 192 (192 * i, 192 * i + 192) = some ⌊y⌋.toNat := by
  have hsum := segment_sum_le pixels (192 * i) 192 hb
  rw [cell_eq_some pixels i hlen hb,
    trunc_double_quotient _ y hsum hexact herr, Int.toNat_ofNat]

/-- An iteration of the first loop on a segment that ends past the pixel vector
reads out of bounds. -/
theorem cell_eq_none (pixels : List Nat) (length start finish : Nat)
    (hs : start < finish) (h : pixels.length < finish) :
    cell pixels length (start, finish) = none := by
  have hlt : ¬ (finish < start) := by omega
  have hn : (pixels.drop start).length < finish - start := by simp; omega
  simp [cell, hlt, accumulate_eq_none _ _ 0 hn]

theorem segments_eq :
    segments 192 64 0 192 = (List.range 64).map (fun i => (192 * i, 192 * i + 192)) := by
  decide

theorem fillCells_eq_some (pixels : List Nat) (length : Nat) (f : Nat × Nat → Nat) :
    ∀ segs : List (Nat × Nat), (∀ seg ∈ segs, cell pixels length seg = some (f seg)) →
      fillCells pixels length segs = some (segs.map f) := by
  intro segs
  induction segs with
  | nil => intro _; rfl
  | cons seg rest ih =>
    intro h
    have h1 := h seg (List.mem_cons_self _ _)
    have h2 := ih (fun t ht => h t (List.mem_cons_of_mem _ ht))
    simp [fillCells, h1, h2]

theorem fillCells_eq_none (pixels : List Nat) (length : Nat) :
    ∀ segs : List (Nat × Nat), (∃ seg ∈ segs, cell pixels length seg = none) →
      fillCells pixels length segs = none := by
  intro segs
  induction segs with
  | nil => intro h; obtain ⟨seg, hmem, _⟩ := h; cases hmem
  | cons seg rest ih =>
    intro h
    obtain ⟨t, hmem, ht⟩ := h
    rcases List.mem_cons.mp hmem with rfl | hmem'
    · simp [fillCells, ht]
    · have h2 := ih ⟨t, hmem', ht⟩
      simp only [fillCells, h2]
      cases cell pixels length seg <;> rfl

theorem testBit_to_ullong :
    ∀ (bits : List Bool) (i : Nat), (to_ullong bits).testBit i = bits.getD i false := by
  intro bits
  induction bits with
  | nil => intro i; simp [to_ullong]
  | cons b rest ih =>
    intro i
    cases i with
    | zero => simp [to_ullong, Nat.testBit_bit_zero]
    | succ i =>
      have := ih i
      simp only [to_ullong, List.foldr_cons] at this ⊢
      rw [Nat.testBit_bit_succ, this]
      simp

theorem to_ullong_lt : ∀ bits : List Bool, to_ullong bits < 2 ^ bits.length := by
  intro bits
  induction bits with
  | nil => simp [to_ullong]
  | cons b rest ih =>
    simp only [to_ullong, List.foldr_cons, List.length_cons, Nat.bit_val] at ih ⊢
    have hb : b.toNat ≤ 1 := Bool.toNat_le b
    rw [Nat.pow_succ]
    omega

theorem take_succ_set (a : Bool) :
    ∀ (l : List Bool) (n : Nat), n < l.length → (l.set n a).take (n + 1) = l.take n ++ [a] := by
  intro l
  induction l with
  | nil => intro n h; simp at h
  | cons b rest ih =>
    intro n h
    cases n with
    | zero => simp
    | succ n =>
      have h' : n < rest.length := by simpa using h
      simp [ih n h']

theorem setLoop_eq (average : Nat) :
    ∀ (cells : List Nat) (itr : Nat) (bitset : List Bool),
      itr + cells.length ≤ bitset.length →
      setLoop average cells itr bitset
        = bitset.take itr ++ cells.map (fun pixel => decide (pixel > average))
            ++ bitset.drop (itr + cells.length) := by
  intro cells
  induction cells with
  | nil => intro itr bitset _; simp [setLoop]
  | cons pixel rest ih =>
    intro itr bitset h
    have hlen : itr + 1 + rest.length ≤ (bitset.set itr (decide (pixel > average))).length := by
      simp only [List.length_set]
      simp only [List.length_cons] at h
      omega
    rw [setLoop, ih (itr + 1) _ hlen]
    have hitr : itr < bitset.length := by
      simp only [List.length_cons] at h
      omega
    have hdrop : itr < itr + 1 + rest.length := by omega
    rw [take_succ_set _ _ _ hitr, List.drop_set_of_lt _ _ hdrop]
    simp [Nat.add_assoc, Nat.add_comm 1 rest.length]

theorem foldl_add_mod (cells : List Nat) :
    ∀ init : Nat, init < U64 →
      cells.foldl (fun acc x => (acc + x) % U64) init = (init + cells.sum) % U64 := by
  induction cells with
  | nil => intro init hi; simp [Nat.mod_eq_of_lt hi]
  | cons x rest ih =>
    intro init _
    have hlt : (init + x) % U64 < U64 := Nat.mod_lt _ U64_pos
    rw [List.foldl_cons, ih _ hlt]
    simp only [List.sum_cons, Nat.mod_add_mod, Nat.add_assoc]

theorem segMean_le (pixels : List Nat) (i : Nat) (hb : ∀ x ∈ pixels, x ≤ 255) :
    segMean pixels i ≤ 255 := by
  have hsum := segment_sum_le pixels (192 * i) 192 hb
  unfold segMean
  apply Nat.div_le_of_le_mul
  omega

theorem fillCells_big (pixels : List Nat) (hlen : 12288 ≤ pixels.length)
    (hb : ∀ x ∈ pixels, x ≤ 255) :
    fillCells pixels 192 (segments 192 64 0 192) = some ((List.range 64).map (segMean pixels)) := by
  rw [segments_eq]
  have h := fillCells_eq_some pixels 192
    (fun seg => ((pixels.drop seg.1).take 192).sum / 192)
    ((List.range 64).map (fun i => (192 * i, 192 * i + 192)))
    (by
      intro seg hseg
      obtain ⟨i, hi, rfl⟩ := List.mem_map.mp hseg
      have hi' : i < 64 := List.mem_range.mp hi
      exact cell_eq_some pixels i (by omega) hb)
  rw [h, List.map_map]
  rfl

theorem constants_eq :
    (CHANNEL_WIDTH * PhotoLite.wid * PhotoLite.hei) % U64 = 192
      ∧ PhotoLite.wid * PhotoLite.hei = 64 := by
  decide

theorem generate_big (photo : Photo) (hlen : 12288 ≤ photo.pixels_.length)
    (hb : ∀ x ∈ photo.pixels_, x ≤ 255) :
    AHashStrategy.generate (some photo) = some (bigDigest photo.pixels_) := by
  have hcells := fillCells_big photo.pixels_ hlen hb
  have hsum : ((List.range 64).map (segMean photo.pixels_)).sum ≤ 64 * 255 := by
    have := sum_le_of_bounded ((List.range 64).map (segMean photo.pixels_)) 255
      (by
        intro x hx
        obtain ⟨i, _, rfl⟩ := List.mem_map.mp hx
        exact segMean_le _ _ hb)
    simpa using this
  have hfold := foldl_add_mod ((List.range 64).map (segMean photo.pixels_)) 0 U64_pos
  have hmod : (0 + ((List.range 64).map (segMean photo.pixels_)).sum) % U64
      = ((List.range 64).map (segMean photo.pixels_)).sum := by
    rw [Nat.zero_add]
    apply Nat.mod_eq_of_lt
    have : (64 * 255 : Nat) < U64 := by decide
    omega
  rw [hmod] at hfold
  have hset := setLoop_eq (((List.range 64).map (segMean photo.pixels_)).sum / 64)
    ((List.range 64).map (segMean photo.pixels_)) 0 (List.replicate 64 false) (by simp)
  simp only [AHashStrategy.generate, constants_eq.1, constants_eq.2, hcells, hfold,
    List.length_map, List.length_range, hset, bigDigest]
  simp

theorem generate_small (photo : Photo) (hlen : photo.pixels_.length < 12288) :
    AHashStrategy.generate (some photo) = none := by
  have hnone : fillCells photo.pixels_ 192 (segments 192 64 0 192) = none := by
    apply fillCells_eq_none
    rw [segments_eq]
    refine ⟨(192 * 63, 192 * 63 + 192), ?_, ?_⟩
    · exact List.mem_map.mpr ⟨63, by simp, rfl⟩
    · exact cell_eq_none _ _ _ _ (by omega) (by omega)
  simp only [AHashStrategy.generate, constants_eq.1, constants_eq.2, hnone]

theorem take_drop_eq_map_getD (xs : List Nat) (s n : Nat) (h : s + n ≤ xs.length) :
    (xs.drop s).take n = (List.range n).map (fun j => xs.getD (s + j) 0) := by
  apply List.ext_getElem?
  intro k
  by_cases hk : k < n
  · have hlt : s + k < xs.length := by omega
    simp [List.getElem?_take, List.getElem?_drop, hk, List.getElem?_range, hlt,
      List.getD_eq_getElem?_getD, List.getElem?_eq_getElem hlt]
  · have hge : n ≤ k := by omega
    simp [List.getElem?_take, hk, List.getElem?_eq_none, hge]

theorem segMean_eq_specCell (pixels : List Nat) (i : Nat)
    (h : 192 * i + 192 ≤ pixels.length) : segMean pixels i = specCell pixels i := by
  unfold segMean specCell
  rw [take_drop_eq_map_getD pixels (192 * i) 192 h]

theorem segMeans_eq_specCells (pixels : List Nat) (h : 12288 ≤ pixels.length) :
    (List.range 64).map (segMean pixels) = (List.range 64).map (specCell pixels) := by
  apply List.map_congr_left
  intro i hi
  have hi' : i < 64 := List.mem_range.mp hi
  exact segMean_eq_specCell pixels i (by omega)

/-- The bits of the digest of an image with enough samples. -/
theorem bigDigest_testBit (pixels : List Nat) (h : 12288 ≤ pixels.length) (i : Nat)
    (hi : i < 64) :
    (bigDigest pixels).testBit i = decide (specCell pixels i > specMean pixels) := by
  unfold bigDigest
  rw [testBit_to_ullong, segMeans_eq_specCells pixels h]
  simp [List.getD_eq_getElem?_getD, List.getElem?_range, hi, specMean]

theorem bigDigest_lt (pixels : List Nat) : bigDigest pixels < 2 ^ 64 := by
  have h := to_ullong_lt (((List.range 64).map (segMean pixels)).map
    (fun pixel => decide (pixel > ((List.range 64).map (segMean pixels)).sum / 64)))
  simpa [bigDigest] using h

theorem to_ullong_eq_zero : ∀ bits : List Bool, (∀ b ∈ bits, b = false) →
    to_ullong bits = 0 := by
  intro bits
  induction bits with
  | nil => intro _; rfl
  | cons b rest ih =>
    intro h
    have hb : b = false := h b (List.mem_cons_self _ _)
    have hr := ih (fun x hx => h x (List.mem_cons_of_mem _ hx))
    simp only [to_ullong, List.foldr_cons] at hr ⊢
    rw [hr, hb]
    rfl

theorem sum_map_const (n : Nat) (l : List Nat) (f : Nat → Nat) (m0 : Nat)
    (hl : l.length = n) (h : ∀ i ∈ l, f i = m0) : (l.map f).sum = n * m0 := by
  induction l generalizing n with
  | nil => simp at hl; subst hl; simp
  | cons x rest ih =>
    have hx := h x (List.mem_cons_self _ _)
    have hr := ih (rest.length) rfl (fun i hi => h i (List.mem_cons_of_mem _ hi))
    simp only [List.length_cons] at hl
    subst hl
    simp only [List.map_cons, List.sum_cons, hx, hr]
    ring

/-- The digest of an image with enough samples is `0` when all cells have the same
value. -/
theorem bigDigest_eq_zero (pixels : List Nat) (m0 : Nat)
    (h : ∀ i, i < 64 → segMean pixels i = m0) : bigDigest pixels = 0 := by
  have hsum : ((List.range 64).map (segMean pixels)).sum = 64 * m0 :=
    sum_map_const 64 (List.range 64) (segMean pixels) m0 (List.length_range 64)
      (fun i hi => h i (List.mem_range.mp hi))
  unfold bigDigest
  apply to_ullong_eq_zero
  intro b hb
  obtain ⟨x, hx, rfl⟩ := List.mem_map.mp hb
  obtain ⟨i, hi, rfl⟩ := List.mem_map.mp hx
  rw [hsum, h i (List.mem_range.mp hi)]
  have : 64 * m0 / 64 = m0 := Nat.mul_div_cancel_left m0 (by decide)
  rw [this]
  simp

theorem segMean_replicate (n v i : Nat) (h : 192 * i + 192 ≤ n) :
    segMean (List.replicate n v) i = v := by
  unfold segMean
  rw [List.drop_replicate, List.take_replicate, List.sum_replicate, smul_eq_mul]
  have hmin : min 192 (n - 192 * i) = 192 := by omega
  rw [hmin]
  exact Nat.mul_div_cancel_left v (by decide)

/-! ## Lemmas on the constructor -/

theorem pushPixel_bound : ∀ (pixel : List (Option Nat)) (px : List Nat),
    pushPixel pixel = some px → ∀ x ∈ px, x ≤ 255 := by
  intro pixel
  induction pixel with
  | nil => intro px h x hx; simp [pushPixel] at h; subst h; cases hx
  | cons b rest ih =>
    intro px h x hx
    cases b with
    | none => simp [pushPixel] at h
    | some b =>
      simp only [pushPixel] at h
      cases hrest : pushPixel rest with
      | none => simp [hrest] at h
      | some out =>
        simp only [hrest, Option.some.injEq] at h
        subst h
        rcases List.mem_cons.mp hx with rfl | hx'
        · have := Nat.mod_lt b (by decide : 0 < 256)
          omega
        · exact ih out hrest x hx'

theorem readPixels_bound : ∀ (n : Nat) (pixel : List (Option Nat)) (s : IfStream)
    (out : List Nat), readPixels n pixel s = some out → ∀ x ∈ out, x ≤ 255 := by
  intro n
  induction n with
  | zero => intro pixel s out h x hx; simp [readPixels] at h; subst h; cases hx
  | succ n ih =>
    intro pixel s out h x hx
    simp only [readPixels] at h
    cases hpx : pushPixel (read pixel s).1 with
    | none => simp [hpx] at h
    | some px =>
      cases hrest : readPixels n (read pixel s).1 (read pixel s).2 with
      | none => simp [hpx, hrest] at h
      | some rest =>
        simp only [hpx, hrest, Option.some.injEq] at h
        subst h
        rcases List.mem_append.mp hx with hx' | hx'
        · exact pushPixel_bound _ _ hpx x hx'
        · exact ih _ _ _ hrest x hx'

/-- The shape of a successfully constructed photo. -/
theorem ctor_ok_shape (fs : FileSystem) (inputfile : String) (photo : Photo)
    (h : Photo.ctor fs inputfile = .ok photo) :
    ∃ (w h : Nat) (s : IfStream) (px : List Nat),
      readPixels ((w * h) % U64) [none, none, none] s = some px
        ∧ photo = ⟨inputfile, w, h, px⟩ := by
  unfold Photo.ctor at h
  split at h
  · cases h
  · dsimp only at h
    split at h
    · cases h
    · split at h
      · next w h' _ _ =>
        split at h
        · cases h
        · next px hpx =>
          cases h
          exact ⟨w, h', _, px, hpx, rfl⟩
      · cases h

/-- Every sample of a constructed photo is the value of an `unsigned char`. -/
theorem ctor_bound (fs : FileSystem) (inputfile : String) (photo : Photo)
    (h : Photo.ctor fs inputfile = .ok photo) : ∀ x ∈ photo.pixels_, x ≤ 255 := by
  obtain ⟨w, h', s, px, hpx, rfl⟩ := ctor_ok_shape fs inputfile photo h
  exact readPixels_bound _ _ _ _ hpx

/-- The file name of a constructed photo is the path it was read from. -/
theorem ctor_filename (fs : FileSystem) (inputfile : String) (photo : Photo)
    (h : Photo.ctor fs inputfile = .ok photo) : photo.filename_ = inputfile := by
  obtain ⟨w, h', s, px, _, rfl⟩ := ctor_ok_shape fs inputfile photo h
  rfl

theorem readPixels_enough : ∀ (n : Nat) (pixel : List (Option Nat)) (buf : List Nat),
    pixel.length = 3 → 3 * n ≤ buf.length →
      readPixels n pixel ⟨buf, true⟩ = some ((buf.take (3 * n)).map (fun b => b % 256)) := by
  intro n
  induction n with
  | zero => intro pixel buf _ _; simp [readPixels]
  | succ n ih =>
    intro pixel buf hp hb
    match buf, hb with
    | a :: b :: c :: rest, hb =>
      have hrest : 3 * n ≤ rest.length := by
        simp only [List.length_cons] at hb
        omega
      have hdrop : pixel.drop 3 = [] := by simp [hp]
      have hih := ih [some a, some b, some c] rest rfl hrest
      have h3 : 3 * (n + 1) = 3 * n + 3 := by ring
      simp [readPixels, read, CHANNEL_WIDTH, hdrop, pushPixel, hih, h3]
    | [], hb => simp only [List.length_nil] at hb; omega
    | [_], hb => simp only [List.length_cons, List.length_nil] at hb; omega
    | [_, _], hb => simp only [List.length_cons, List.length_nil] at hb; omega

theorem extractString_ppm64 (payload : List Nat) :
    extractString ⟨ppm64Header ++ payload, true⟩
      = ([80, 54], ⟨[10, 54, 52, 32, 54, 52, 10, 50, 53, 53, 10] ++ payload, true⟩) := by
  simp [extractString, ppm64Header, isspace, List.dropWhile, List.takeWhile]

theorem extractUInt64_w (payload : List Nat) :
    extractUInt64 ⟨[10, 54, 52, 32, 54, 52, 10, 50, 53, 53, 10] ++ payload, true⟩
      = (some 64, ⟨[32, 54, 52, 10, 50, 53, 53, 10] ++ payload, true⟩) := by
  simp [extractUInt64, isspace, isdigit, List.dropWhile, List.takeWhile, digitsValue, U64]

theorem extractUInt64_h (payload : List Nat) :
    extractUInt64 ⟨[32, 54, 52, 10, 50, 53, 53, 10] ++ payload, true⟩
      = (some 64, ⟨[10, 50, 53, 53, 10] ++ payload, true⟩) := by
  simp [extractUInt64, isspace, isdigit, List.dropWhile, List.takeWhile, digitsValue, U64]

theorem extractUInt64_b (payload : List Nat) :
    extractUInt64 ⟨[10, 50, 53, 53, 10] ++ payload, true⟩
      = (some 255, ⟨[10] ++ payload, true⟩) := by
  simp [extractUInt64, isspace, isdigit, List.dropWhile, List.takeWhile, digitsValue, U64]

/-- The constructor on a file that holds the header of a 64 by 64 image followed
by exactly the samples of the image. -/
theorem ctor_ppm64 (fs : FileSystem) (inputfile : String) (payload : List Nat)
    (hfs : fs inputfile = some (ppm64Header ++ payload)) (hlen : payload.length = 12288) :
    Photo.ctor fs inputfile = .ok ⟨inputfile, 64, 64, payload.map (fun b => b % 256)⟩ := by
  have hread := readPixels_enough 4096 [none, none, none] payload rfl (by omega)
  have htake : payload.take (3 * 4096) = payload := by
    apply List.take_of_length_le
    omega
  rw [htake] at hread
  have hdim : (64 * 64) % U64 = 4096 := by decide
  have hign : ignore 256 10 ⟨[10] ++ payload, true⟩ = ⟨payload, true⟩ := by
    simp [ignore, ignoreLoop]
  unfold Photo.ctor
  rw [hfs]
  dsimp only
  rw [extractString_ppm64]
  dsimp only
  rw [extractUInt64_w]
  dsimp only
  rw [extractUInt64_h]
  dsimp only
  rw [extractUInt64_b]
  dsimp only
  rw [hign, hdim, hread]
  simp

/-! ## Lemmas on the index -/

theorem Photo.eq_iff (a b : Photo) :
    Photo.eq a b = true ↔ a.wid = b.wid ∧ a.hei = b.hei ∧ a.pixels_ = b.pixels_ := by
  unfold Photo.eq Photo.GetWidth Photo.GetHeight
  by_cases hw : a.wid = b.wid
  · by_cases hh : a.hei = b.hei
    · simp [hw, hh]
    · simp [hw, hh]
  · simp [hw]

theorem Photo.eq_refl (a : Photo) : Photo.eq a a = true :=
  (Photo.eq_iff a a).mpr ⟨rfl, rfl, rfl⟩

theorem Photo.eq_symm (a b : Photo) (h : Photo.eq a b = true) : Photo.eq b a = true := by
  obtain ⟨h1, h2, h3⟩ := (Photo.eq_iff a b).mp h
  exact (Photo.eq_iff b a).mpr ⟨h1.symm, h2.symm, h3.symm⟩

theorem hashKey_congr (a b : Photo) (h : a.pixels_ = b.pixels_) : a.hashKey = b.hashKey := by
  simp only [Photo.hashKey, AHashStrategy.generate, h]

theorem hashKey_of_eq (a b : Photo) (h : Photo.eq a b = true) : a.hashKey = b.hashKey :=
  hashKey_congr a b ((Photo.eq_iff a b).mp h).2.2

theorem mapFind_eq_none_iff (m : PhotoMap) (key : Nat) :
    mapFind m key = none ↔ key ∉ m.map Prod.fst := by
  induction m with
  | nil => simp [mapFind]
  | cons e rest ih =>
    obtain ⟨k, bucket⟩ := e
    by_cases hk : k = key
    · simp [mapFind, hk]
    · have hk' : ¬ key = k := fun h => hk h.symm
      simp [mapFind, hk, hk', ih]

theorem mapFind_mem (m : PhotoMap) (key : Nat) (bucket : List RawPtr)
    (h : mapFind m key = some bucket) : (key, bucket) ∈ m := by
  induction m with
  | nil => simp [mapFind] at h
  | cons e rest ih =>
    obtain ⟨k, b⟩ := e
    by_cases hk : k = key
    · simp only [mapFind, hk, if_true, Option.some.injEq] at h
      subst h
      subst hk
      exact List.mem_cons_self _ _
    · simp only [mapFind, hk, if_false] at h
      exact List.mem_cons_of_mem _ (ih h)

theorem mapFind_of_mem (m : PhotoMap) (key : Nat) (bucket : List RawPtr)
    (hnd : (m.map Prod.fst).Nodup) (h : (key, bucket) ∈ m) : mapFind m key = some bucket := by
  induction m with
  | nil => cases h
  | cons e rest ih =>
    obtain ⟨k, b⟩ := e
    simp only [List.map_cons, List.nodup_cons] at hnd
    rcases List.mem_cons.mp h with heq | hmem
    · cases heq
      simp [mapFind]
    · have hne : k ≠ key := by
        intro hk
        apply hnd.1
        rw [hk]
        exact List.mem_map.mpr ⟨(key, bucket), hmem, rfl⟩
      simp only [mapFind, hne, if_false]
      exact ih hnd.2 hmem

theorem mapAssign_of_not_mem (m : PhotoMap) (key : Nat) (list : List RawPtr)
    (h : key ∉ m.map Prod.fst) : mapAssign m key list = m ++ [(key, list)] := by
  induction m with
  | nil => rfl
  | cons e rest ih =>
    obtain ⟨k, b⟩ := e
    simp only [List.map_cons, List.mem_cons, not_or] at h
    have hk : ¬ k = key := fun hk => h.1 hk.symm
    simp [mapAssign, hk, ih h.2]

theorem mapPushBack_keys (m : PhotoMap) (key : Nat) (p : RawPtr) :
    (mapPushBack m key p).map Prod.fst = m.map Prod.fst := by
  induction m with
  | nil => rfl
  | cons e rest ih =>
    obtain ⟨k, b⟩ := e
    by_cases hk : k = key
    · simp [mapPushBack, hk]
    · simp [mapPushBack, hk, ih]

theorem mapPushBack_refs (m : PhotoMap) (key : Nat) (p : RawPtr) (bucket : List RawPtr)
    (h : mapFind m key = some bucket) :
    ((mapPushBack m key p).flatMap Prod.snd).Perm (m.flatMap Prod.snd ++ [p]) := by
  induction m with
  | nil => simp [mapFind] at h
  | cons e rest ih =>
    obtain ⟨k, b⟩ := e
    by_cases hk : k = key
    · simp only [mapPushBack, hk, if_true, List.flatMap_cons, List.append_assoc]
      exact List.Perm.append_left b List.perm_append_comm
    · simp only [mapFind, hk, if_false] at h
      simp only [mapPushBack, hk, if_false, List.flatMap_cons, List.append_assoc]
      exact List.Perm.append_left b (ih h)

theorem mapPushBack_mem (m : PhotoMap) (key : Nat) (p : RawPtr) (bucket : List RawPtr)
    (hnd : (m.map Prod.fst).Nodup) (h : mapFind m key = some bucket)
    (k' : Nat) (b' : List RawPtr) (hmem : (k', b') ∈ mapPushBack m key p) :
    (k' ≠ key ∧ (k', b') ∈ m) ∨ (k' = key ∧ b' = bucket ++ [p]) := by
  induction m with
  | nil => simp [mapFind] at h
  | cons e rest ih =>
    obtain ⟨k, b⟩ := e
    simp only [List.map_cons, List.nodup_cons] at hnd
    by_cases hk : k = key
    · subst hk
      simp only [mapFind, if_true, Option.some.injEq] at h
      subst h
      simp only [mapPushBack, if_true] at hmem
      rcases List.mem_cons.mp hmem with heq | hrest
      · cases heq
        exact Or.inr ⟨rfl, rfl⟩
      · left
        refine ⟨?_, List.mem_cons_of_mem _ hrest⟩
        intro hk'
        apply hnd.1
        rw [← hk']
        exact List.mem_map.mpr ⟨(k', b'), hrest, rfl⟩
    · simp only [mapFind, hk, if_false] at h
      simp only [mapPushBack, hk, if_false] at hmem
      rcases List.mem_cons.mp hmem with heq | hrest
      · cases heq
        exact Or.inl ⟨hk, List.mem_cons_self _ _⟩
      · rcases ih hnd.2 h hrest with ⟨h1, h2⟩ | h2
        · exact Or.inl ⟨h1, List.mem_cons_of_mem _ h2⟩
        · exact Or.inr h2

theorem mapFind_append_new (m : PhotoMap) (key : Nat) (list : List RawPtr)
    (h : mapFind m key = none) : mapFind (m ++ [(key, list)]) key = some list := by
  induction m with
  | nil => simp [mapFind]
  | cons e rest ih =>
    obtain ⟨k, b⟩ := e
    by_cases hk : k = key
    · simp [mapFind, hk] at h
    · simp only [mapFind, hk, if_false] at h
      simp only [List.cons_append, mapFind, hk, if_false]
      exact ih h

theorem mapFind_mapPushBack (m : PhotoMap) (key : Nat) (p : RawPtr) (bucket : List RawPtr)
    (h : mapFind m key = some bucket) :
    mapFind (mapPushBack m key p) key = some (bucket ++ [p]) := by
  induction m with
  | nil => simp [mapFind] at h
  | cons e rest ih =>
    obtain ⟨k, b⟩ := e
    by_cases hk : k = key
    · simp only [mapFind, hk, if_true, Option.some.injEq] at h
      subst h
      simp [mapPushBack, mapFind, hk]
    · simp only [mapFind, hk, if_false] at h
      simp only [mapPushBack, mapFind, hk, if_false]
      exact ih h

theorem scanBucket_false (vec : List (Option Photo)) (photo : Photo) :
    ∀ bucket : List RawPtr, scanBucket vec photo bucket = some false →
      ∀ (i : Nat) (q : Photo), some i ∈ bucket → vec[i]? = some (some q) →
        Photo.eq q photo = false := by
  intro bucket
  induction bucket with
  | nil => intro _ i q hi; cases hi
  | cons p rest ih =>
    intro h i q hi hq
    cases p with
    | none =>
      simp only [scanBucket] at h
      rcases List.mem_cons.mp hi with heq | hmem
      · cases heq
      · exact ih h i q hmem hq
    | some j =>
      simp only [scanBucket] at h
      cases hj : vec[j]? with
      | none => simp [hj] at h
      | some slot =>
        cases slot with
        | none => simp [hj] at h
        | some r =>
          simp only [hj] at h
          by_cases hr : Photo.eq r photo = true
          · simp [hr] at h
          · simp only [hr, if_false] at h
            rcases List.mem_cons.mp hi with heq | hmem
            · cases heq
              rw [hj] at hq
              cases hq
              simpa using hr
            · exact ih h i q hmem hq

theorem scanBucket_true (vec : List (Option Photo)) (photo : Photo) :
    ∀ bucket : List RawPtr, scanBucket vec photo bucket = some true →
      ∃ (i : Nat) (q : Photo), some i ∈ bucket ∧ vec[i]? = some (some q)
        ∧ Photo.eq q photo = true := by
  intro bucket
  induction bucket with
  | nil => intro h; simp [scanBucket] at h
  | cons p rest ih =>
    intro h
    cases p with
    | none =>
      simp only [scanBucket] at h
      obtain ⟨i, q, h1, h2, h3⟩ := ih h
      exact ⟨i, q, List.mem_cons_of_mem _ h1, h2, h3⟩
    | some j =>
      simp only [scanBucket] at h
      cases hj : vec[j]? with
      | none => simp [hj] at h
      | some slot =>
        cases slot with
        | none => simp [hj] at h
        | some r =>
          simp only [hj] at h
          by_cases hr : Photo.eq r photo = true
          · exact ⟨j, r, List.mem_cons_self _ _, hj, hr⟩
          · simp only [hr, if_false] at h
            obtain ⟨i, q, h1, h2, h3⟩ := ih h
            exact ⟨i, q, List.mem_cons_of_mem _ h1, h2, h3⟩

theorem scanBucket_ne_none (vec : List (Option Photo)) (photo : Photo) :
    ∀ bucket : List RawPtr, (∀ i : Nat, some i ∈ bucket → ∃ q, vec[i]? = some (some q)) →
      scanBucket vec photo bucket ≠ none := by
  intro bucket
  induction bucket with
  | nil => intro _; simp [scanBucket]
  | cons p rest ih =>
    intro hv
    have hrest := ih (fun i hi => hv i (List.mem_cons_of_mem _ hi))
    cases p with
    | none => simpa only [scanBucket] using hrest
    | some j =>
      obtain ⟨q, hq⟩ := hv j (List.mem_cons_self _ _)
      simp only [scanBucket, hq]
      by_cases hr : Photo.eq q photo = true
      · simp [hr]
      · simpa only [hr, if_false] using hrest

theorem backGet_concat (vec : List (Option Photo)) (photo : Photo) :
    backGet (vec ++ [some photo]) = some vec.length := by
  simp [backGet, List.getLast?_concat]

/-- The outcomes of `AddPhoto`, branch by branch. -/
theorem AddPhoto_spec (fs : FileSystem) (c : Collection) (filename : String) :
    (∃ e, Photo.ctor fs filename = .error e ∧ c.AddPhoto fs filename = (.error e, c))
    ∨ ∃ photo, Photo.ctor fs filename = .ok photo ∧
      ((photo.hashKey = none ∧ c.AddPhoto fs filename = (.error .undefined, c))
      ∨ ∃ key, photo.hashKey = some key ∧
        ((mapFind c.photoMap_ key = none ∧ c.AddPhoto fs filename
            = (.ok true, ⟨c.photoVec_ ++ [some photo],
                mapAssign c.photoMap_ key [some c.photoVec_.length]⟩))
        ∨ ∃ bucket, mapFind c.photoMap_ key = some bucket ∧
          ((scanBucket c.photoVec_ photo bucket = none
              ∧ c.AddPhoto fs filename = (.error .undefined, c))
          ∨ (scanBucket c.photoVec_ photo bucket = some true
              ∧ c.AddPhoto fs filename = (.ok false, c))
          ∨ (scanBucket c.photoVec_ photo bucket = some false
              ∧ c.AddPhoto fs filename
                = (.ok true, ⟨c.photoVec_ ++ [some photo],
                    mapPushBack c.photoMap_ key (some c.photoVec_.length)⟩))))) := by
  cases hc : Photo.ctor fs filename with
  | error e =>
    exact Or.inl ⟨e, rfl, by simp only [Collection.AddPhoto, hc]⟩
  | ok photo =>
    refine Or.inr ⟨photo, rfl, ?_⟩
    cases hk : photo.hashKey with
    | none => exact Or.inl ⟨rfl, by simp only [Collection.AddPhoto, hc, hk]⟩
    | some key =>
      refine Or.inr ⟨key, rfl, ?_⟩
      cases hf : mapFind c.photoMap_ key with
      | none =>
        exact Or.inl ⟨rfl, by simp only [Collection.AddPhoto, hc, hk, hf, backGet_concat]⟩
      | some bucket =>
        refine Or.inr ⟨bucket, rfl, ?_⟩
        cases hs : scanBucket c.photoVec_ photo bucket with
        | none => exact Or.inl ⟨rfl, by simp only [Collection.AddPhoto, hc, hk, hf, hs]⟩
        | some b =>
          cases b with
          | true =>
            exact Or.inr (Or.inl ⟨rfl, by simp only [Collection.AddPhoto, hc, hk, hf, hs]⟩)
          | false =>
            exact Or.inr (Or.inr ⟨rfl, by
              simp only [Collection.AddPhoto, hc, hk, hf, hs, backGet_concat]⟩)

/-! ## The invariant -/

theorem Inv_empty : Collection.empty.Inv where
  slots := by intro i hi; simp [Collection.empty] at hi
  keys := by simp [Collection.empty]
  perm := by simp [Collection.empty, Collection.refs]
  bounded := by intro i photo h; simp [Collection.empty] at h
  keyed := by intro key bucket h; simp [Collection.empty] at h
  dedup := by intro i j a b h; simp [Collection.empty] at h

theorem slot_lt {α : Type} (vec : List α) (i : Nat) (x : α) (h : vec[i]? = some x) :
    i < vec.length := by
  by_contra hge
  have : vec[i]? = none := List.getElem?_eq_none (by omega)
  rw [this] at h
  cases h

/-- The bucket that holds the pointer to a slot; its key is the hash key of the
photo in the slot when the photo has one. -/
theorem Inv_bucket_of_slot {c : Collection} (hinv : c.Inv) (i : Nat) (q : Photo)
    (h : c.photoVec_[i]? = some (some q)) :
    ∃ key bucket, mapFind c.photoMap_ key = some bucket ∧ some i ∈ bucket
      ∧ ∀ k, q.hashKey = some k → k = key := by
  have hi : i < c.photoVec_.length := slot_lt _ _ _ h
  have hmem : some i ∈ c.refs := by
    rw [hinv.perm.mem_iff]
    exact List.mem_map.mpr ⟨i, List.mem_range.mpr hi, rfl⟩
  obtain ⟨e, he, hie⟩ := List.mem_flatMap.mp hmem
  obtain ⟨k, b⟩ := e
  obtain ⟨q', hq', hkey⟩ := hinv.keyed k b he i hie
  rw [h] at hq'
  cases hq'
  exact ⟨k, b, mapFind_of_mem _ _ _ hinv.keys he, hie, hkey⟩

theorem Inv_bucket_of_key {c : Collection} (hinv : c.Inv) (i : Nat) (q : Photo) (key : Nat)
    (h : c.photoVec_[i]? = some (some q)) (hk : q.hashKey = some key) :
    ∃ bucket, mapFind c.photoMap_ key = some bucket ∧ some i ∈ bucket := by
  obtain ⟨k, b, hf, hib, hkey⟩ := Inv_bucket_of_slot hinv i q h
  have hkk : key = k := hkey key hk
  subst hkk
  exact ⟨b, hf, hib⟩

theorem Inv_valid_bucket {c : Collection} (hinv : c.Inv) (key : Nat) (bucket : List RawPtr)
    (hf : mapFind c.photoMap_ key = some bucket) :
    ∀ i : Nat, some i ∈ bucket → ∃ q, c.photoVec_[i]? = some (some q) := by
  intro i hi
  obtain ⟨q, hq, _⟩ := hinv.keyed key bucket (mapFind_mem _ _ _ hf) i hi
  exact ⟨q, hq⟩

theorem Inv_no_equal_of_find_none {c : Collection} (hinv : c.Inv) (photo : Photo) (key : Nat)
    (hk : photo.hashKey = some key) (hf : mapFind c.photoMap_ key = none) :
    ∀ (i : Nat) (q : Photo), c.photoVec_[i]? = some (some q) → Photo.eq q photo = false := by
  intro i q hq
  by_contra hne
  have heq : Photo.eq q photo = true := by simpa using hne
  have hkq : q.hashKey = some key := by
    rw [hashKey_of_eq q photo heq]
    exact hk
  obtain ⟨b, hfind, _⟩ := Inv_bucket_of_key hinv i q key hq hkq
  rw [hf] at hfind
  cases hfind

theorem Inv_no_equal_of_scan_false {c : Collection} (hinv : c.Inv) (photo : Photo) (key : Nat)
    (bucket : List RawPtr) (hk : photo.hashKey = some key)
    (hf : mapFind c.photoMap_ key = some bucket)
    (hs : scanBucket c.photoVec_ photo bucket = some false) :
    ∀ (i : Nat) (q : Photo), c.photoVec_[i]? = some (some q) → Photo.eq q photo = false := by
  intro i q hq
  by_contra hne
  have heq : Photo.eq q photo = true := by simpa using hne
  have hkq : q.hashKey = some key := by
    rw [hashKey_of_eq q photo heq]
    exact hk
  obtain ⟨b, hfind, hib⟩ := Inv_bucket_of_key hinv i q key hq hkq
  rw [hf] at hfind
  cases hfind
  have := scanBucket_false _ _ _ hs i q hib hq
  rw [this] at heq
  cases heq

theorem getElem?_concat_cases {α : Type} (vec : List α) (x y : α) (i : Nat)
    (h : (vec ++ [x])[i]? = some y) :
    (i < vec.length ∧ vec[i]? = some y) ∨ (i = vec.length ∧ y = x) := by
  by_cases hi : i < vec.length
  · rw [List.getElem?_append_left hi] at h
    exact Or.inl ⟨hi, h⟩
  · have hge : vec.length ≤ i := by omega
    rw [List.getElem?_append_right hge] at h
    have hlt := slot_lt _ _ _ h
    simp only [List.length_cons, List.length_nil] at hlt
    have h0 : i - vec.length = 0 := by omega
    rw [h0] at h
    simp only [List.getElem?_cons_zero, Option.some.injEq] at h
    exact Or.inr ⟨by omega, h.symm⟩

theorem hashKey_eq_of_unique (photo : Photo) (key : Nat)
    (hk : ∀ k, photo.hashKey = some k → k = key) (hdef : photo.hashKey ≠ none) :
    photo.hashKey = some key := by
  cases h : photo.hashKey with
  | none => exact absurd h hdef
  | some k => rw [hk k h]

/-- The invariant survives storing a photo, under the key `key`, when the index
gains exactly the pointer to the new slot, in the bucket of `key`: `key` is the
hash key of the photo if the photo has one, and in that case the photo equals no
stored photo. -/
theorem Inv_extend {c : Collection} (hinv : c.Inv) (photo : Photo) (key : Nat)
    (hbd : ∀ x ∈ photo.pixels_, x ≤ 255)
    (hk : ∀ k, photo.hashKey = some k → k = key)
    (hne : photo.hashKey ≠ none → ∀ (i : Nat) (q : Photo),
      c.photoVec_[i]? = some (some q) → Photo.eq q photo = false)
    (m' : PhotoMap) (hkeys : (m'.map Prod.fst).Nodup)
    (hperm : (m'.flatMap Prod.snd).Perm (c.refs ++ [some c.photoVec_.length]))
    (hmem : ∀ (k : Nat) (b : List RawPtr), (k, b) ∈ m' → ∀ i : Nat, some i ∈ b →
      (∃ b0, (k, b0) ∈ c.photoMap_ ∧ some i ∈ b0) ∨ (k = key ∧ i = c.photoVec_.length)) :
    Collection.Inv ⟨c.photoVec_ ++ [some photo], m'⟩ where
  slots := by
    intro i hi
    simp only [List.length_append, List.length_cons, List.length_nil] at hi
    by_cases hlt : i < c.photoVec_.length
    · obtain ⟨q, hq⟩ := hinv.slots i hlt
      exact ⟨q, by simp only [List.getElem?_append_left hlt, hq]⟩
    · have hi' : i = c.photoVec_.length := by omega
      subst hi'
      exact ⟨photo, by simp⟩
  keys := hkeys
  perm := by
    simp only [Collection.refs, List.length_append, List.length_cons, List.length_nil,
      List.range_succ, List.map_append, List.map_cons, List.map_nil]
    exact hperm.trans (List.Perm.append_right _ hinv.perm)
  bounded := by
    intro i q hq
    rcases getElem?_concat_cases _ _ _ _ hq with ⟨_, hq'⟩ | ⟨_, hq'⟩
    · exact hinv.bounded i q hq'
    · cases hq'
      exact hbd
  keyed := by
    intro k b hkb i hi
    rcases hmem k b hkb i hi with ⟨b0, hb0, hi0⟩ | ⟨rfl, rfl⟩
    · obtain ⟨q, hq, hkq⟩ := hinv.keyed k b0 hb0 i hi0
      have hlt := slot_lt _ _ _ hq
      exact ⟨q, by simp only [List.getElem?_append_left hlt, hq], hkq⟩
    · exact ⟨photo, by simp, hk⟩
  dedup := by
    intro i j a b ha hb hdef hab
    rcases getElem?_concat_cases _ _ _ _ ha with ⟨_, ha'⟩ | ⟨hi, ha'⟩
    · rcases getElem?_concat_cases _ _ _ _ hb with ⟨_, hb'⟩ | ⟨_, hb'⟩
      · exact hinv.dedup i j a b ha' hb' hdef hab
      · cases hb'
        have hdef' : photo.hashKey ≠ none := by
          rw [← hashKey_of_eq a photo hab]
          exact hdef
        rw [hne hdef' i a ha'] at hab
        cases hab
    · rcases getElem?_concat_cases _ _ _ _ hb with ⟨_, hb'⟩ | ⟨hj, _⟩
      · cases ha'
        have := hne hdef j b hb'
        rw [Photo.eq_symm _ _ hab] at this
        cases this
      · omega

theorem Inv_insert {c : Collection} (hinv : c.Inv) (photo : Photo) (key : Nat)
    (hbd : ∀ x ∈ photo.pixels_, x ≤ 255)
    (hk : ∀ k, photo.hashKey = some k → k = key) (hf : mapFind c.photoMap_ key = none) :
    Collection.Inv ⟨c.photoVec_ ++ [some photo],
      mapAssign c.photoMap_ key [some c.photoVec_.length]⟩ := by
  have hnot : key ∉ c.photoMap_.map Prod.fst := (mapFind_eq_none_iff _ _).mp hf
  rw [mapAssign_of_not_mem _ _ _ hnot]
  apply Inv_extend hinv photo key hbd hk
    (fun hdef => Inv_no_equal_of_find_none hinv photo key
      (hashKey_eq_of_unique photo key hk hdef) hf)
  · rw [List.map_append, List.nodup_append]
    refine ⟨hinv.keys, by simp, ?_⟩
    intro a ha hb
    simp only [List.map_cons, List.map_nil, List.mem_singleton] at hb
    subst hb
    exact hnot ha
  · simp [Collection.refs, List.flatMap_append]
  · intro k b hkb i hi
    rcases List.mem_append.mp hkb with hold | hnew
    · exact Or.inl ⟨b, hold, hi⟩
    · simp only [List.mem_singleton, Prod.mk.injEq] at hnew
      obtain ⟨rfl, rfl⟩ := hnew
      simp only [List.mem_singleton, Option.some.injEq] at hi
      exact Or.inr ⟨rfl, hi⟩

theorem Inv_push {c : Collection} (hinv : c.Inv) (photo : Photo) (key : Nat)
    (bucket : List RawPtr) (hbd : ∀ x ∈ photo.pixels_, x ≤ 255)
    (hk : ∀ k, photo.hashKey = some k → k = key)
    (hf : mapFind c.photoMap_ key = some bucket)
    (hs : scanBucket c.photoVec_ photo bucket = some false) :
    Collection.Inv ⟨c.photoVec_ ++ [some photo],
      mapPushBack c.photoMap_ key (some c.photoVec_.length)⟩ := by
  apply Inv_extend hinv photo key hbd hk
    (fun hdef => Inv_no_equal_of_scan_false hinv photo key bucket
      (hashKey_eq_of_unique photo key hk hdef) hf hs)
  · rw [mapPushBack_keys]
    exact hinv.keys
  · exact mapPushBack_refs _ _ _ _ hf
  · intro k b hkb i hi
    rcases mapPushBack_mem _ _ _ _ hinv.keys hf k b hkb with ⟨_, hold⟩ | ⟨rfl, rfl⟩
    · exact Or.inl ⟨b, hold, hi⟩
    · rcases List.mem_append.mp hi with hib | hnew
      · exact Or.inl ⟨bucket, mapFind_mem _ _ _ hf, hib⟩
      · simp only [List.mem_singleton, Option.some.injEq] at hnew
        exact Or.inr ⟨rfl, hnew⟩

/-- The outcomes of the statements of `AddPhoto` that follow the computation of
the key, branch by branch. -/
theorem AddPhotoWithKey_spec (c : Collection) (photo : Photo) (key : Nat) :
    (mapFind c.photoMap_ key = none ∧ c.AddPhotoWithKey photo key
        = (.ok true, ⟨c.photoVec_ ++ [some photo],
            mapAssign c.photoMap_ key [some c.photoVec_.length]⟩))
    ∨ ∃ bucket, mapFind c.photoMap_ key = some bucket ∧
      ((scanBucket c.photoVec_ photo bucket = none
          ∧ c.AddPhotoWithKey photo key = (.error .undefined, c))
      ∨ (scanBucket c.photoVec_ photo bucket = some true
          ∧ c.AddPhotoWithKey photo key = (.ok false, c))
      ∨ (scanBucket c.photoVec_ photo bucket = some false
          ∧ c.AddPhotoWithKey photo key
            = (.ok true, ⟨c.photoVec_ ++ [some photo],
                mapPushBack c.photoMap_ key (some c.photoVec_.length)⟩))) := by
  cases hf : mapFind c.photoMap_ key with
  | none =>
    exact Or.inl ⟨rfl, by simp only [Collection.AddPhotoWithKey, hf, backGet_concat]⟩
  | some bucket =>
    refine Or.inr ⟨bucket, rfl, ?_⟩
    cases hs : scanBucket c.photoVec_ photo bucket with
    | none => exact Or.inl ⟨rfl, by simp only [Collection.AddPhotoWithKey, hf, hs]⟩
    | some b =>
      cases b with
      | true =>
        exact Or.inr (Or.inl ⟨rfl, by simp only [Collection.AddPhotoWithKey, hf, hs]⟩)
      | false =>
        exact Or.inr (Or.inr ⟨rfl, by
          simp only [Collection.AddPhotoWithKey, hf, hs, backGet_concat]⟩)

/-- With the key that `hashKey` returns, `AddPhoto` is the constructor followed by
`AddPhotoWithKey`. -/
theorem AddPhoto_eq_withKey (fs : FileSystem) (c : Collection) (filename : String)
    (photo : Photo) (key : Nat) (hc : Photo.ctor fs filename = .ok photo)
    (hk : photo.hashKey = some key) :
    c.AddPhoto fs filename = c.AddPhotoWithKey photo key := by
  cases hf : mapFind c.photoMap_ key with
  | none => simp only [Collection.AddPhoto, Collection.AddPhotoWithKey, hc, hk, hf]
  | some bucket =>
    cases hs : scanBucket c.photoVec_ photo bucket with
    | none => simp only [Collection.AddPhoto, Collection.AddPhotoWithKey, hc, hk, hf, hs]
    | some b =>
      cases b <;> simp only [Collection.AddPhoto, Collection.AddPhotoWithKey, hc, hk, hf, hs]

/-- When every read of `generate` is inside the pixel vector, the call in the
compiled program is `AddPhoto`. -/
theorem AddPhotoReading_of_key (read : Nat) (fs : FileSystem) (c : Collection)
    (filename : String) (photo : Photo) (key : Nat)
    (hc : Photo.ctor fs filename = .ok photo) (hk : photo.hashKey = some key) :
    c.AddPhotoReading read fs filename = c.AddPhoto fs filename := by
  rw [AddPhoto_eq_withKey fs c filename photo key hc hk]
  simp only [Collection.AddPhotoReading, hc, hk]

/-- When the constructor throws, the call in the compiled program is `AddPhoto`. -/
theorem AddPhotoReading_of_error (read : Nat) (fs : FileSystem) (c : Collection)
    (filename : String) (e : Error) (hc : Photo.ctor fs filename = .error e) :
    c.AddPhotoReading read fs filename = c.AddPhoto fs filename := by
  simp only [Collection.AddPhotoReading, Collection.AddPhoto, hc]

/-- On a photo with samples, of which `generate` reads beyond the end, the call in
the compiled program goes on with the key that was read. -/
theorem AddPhotoReading_of_read (read : Nat) (fs : FileSystem) (c : Collection)
    (filename : String) (photo : Photo) (hc : Photo.ctor fs filename = .ok photo)
    (hk : photo.hashKey = none) (hne : photo.pixels_ ≠ []) :
    c.AddPhotoReading read fs filename = c.AddPhotoWithKey photo (read % U64) := by
  have hemp : photo.pixels_.isEmpty = false := by
    cases hp : photo.pixels_ with
    | nil => exact absurd hp hne
    | cons _ _ => rfl
  simp only [Collection.AddPhotoReading, hc, hk, hemp]
  rfl

theorem Inv_AddPhotoWithKey {c : Collection} (hinv : c.Inv) (photo : Photo) (key : Nat)
    (hbd : ∀ x ∈ photo.pixels_, x ≤ 255) (hk : ∀ k, photo.hashKey = some k → k = key) :
    (c.AddPhotoWithKey photo key).2.Inv := by
  rcases AddPhotoWithKey_spec c photo key with ⟨hf, h⟩ | ⟨bucket, hf, h⟩
  · rw [h]; exact Inv_insert hinv photo key hbd hk hf
  · rcases h with ⟨_, h⟩ | ⟨_, h⟩ | ⟨hs, h⟩
    · rw [h]; exact hinv
    · rw [h]; exact hinv
    · rw [h]; exact Inv_push hinv photo key bucket hbd hk hf hs

/-- A call of `AddPhoto` maintains the invariant. -/
theorem Inv_AddPhoto {c : Collection} (hinv : c.Inv) (fs : FileSystem) (filename : String) :
    (c.AddPhoto fs filename).2.Inv := by
  rcases AddPhoto_spec fs c filename with ⟨e, _, h⟩ | ⟨photo, hc, h⟩
  · rw [h]; exact hinv
  · rcases h with ⟨_, h⟩ | ⟨key, hk, h⟩
    · rw [h]; exact hinv
    · rw [AddPhoto_eq_withKey fs c filename photo key hc hk]
      apply Inv_AddPhotoWithKey hinv photo key (ctor_bound fs filename photo hc)
      intro k hk'
      rw [hk] at hk'
      exact (Option.some.inj hk').symm

/-- A call of `AddPhoto` in the compiled program maintains the invariant, whatever
key a read beyond the end of the pixel vector gives. -/
theorem Inv_AddPhotoReading {c : Collection} (hinv : c.Inv) (read : Nat) (fs : FileSystem)
    (filename : String) : (c.AddPhotoReading read fs filename).2.Inv := by
  cases hc : Photo.ctor fs filename with
  | error e =>
    simp only [Collection.AddPhotoReading, hc]
    exact hinv
  | ok photo =>
    have hbd := ctor_bound fs filename photo hc
    cases hk : photo.hashKey with
    | some key =>
      rw [AddPhotoReading_of_key read fs c filename photo key hc hk]
      exact Inv_AddPhoto hinv fs filename
    | none =>
      by_cases hne : photo.pixels_ = []
      · simp only [Collection.AddPhotoReading, hc, hk, hne, List.isEmpty_nil, if_true]
        exact hinv
      · rw [AddPhotoReading_of_read read fs c filename photo hc hk hne]
        apply Inv_AddPhotoWithKey hinv photo _ hbd
        intro k hk'
        rw [hk] at hk'
        cases hk'

/-- Store and index change together in the compiled program as well: a call that
does not return `true` leaves the collection as it was, and a call that returns
`true` appends the constructed photo to the store and exactly one pointer, to the
new slot, to the index, whatever key a read beyond the end of the pixel vector
gives. -/
theorem AddPhotoReading_atomic (read : Nat) (fs : FileSystem) (c : Collection)
    (filename : String) :
    ((c.AddPhotoReading read fs filename).1 ≠ .ok true →
        (c.AddPhotoReading read fs filename).2 = c)
      ∧ ((c.AddPhotoReading read fs filename).1 = .ok true →
          ∃ photo : Photo, Photo.ctor fs filename = .ok photo
            ∧ (c.AddPhotoReading read fs filename).2.photoVec_ = c.photoVec_ ++ [some photo]
            ∧ (c.AddPhotoReading read fs filename).2.refs.Perm
                (c.refs ++ [some c.photoVec_.length])) := by
  have hkey : ∀ (photo : Photo) (key : Nat),
      ((c.AddPhotoWithKey photo key).1 ≠ .ok true → (c.AddPhotoWithKey photo key).2 = c)
        ∧ ((c.AddPhotoWithKey photo key).1 = .ok true →
            (c.AddPhotoWithKey photo key).2.photoVec_ = c.photoVec_ ++ [some photo]
              ∧ (c.AddPhotoWithKey photo key).2.refs.Perm
                  (c.refs ++ [some c.photoVec_.length])) := by
    intro photo key
    rcases AddPhotoWithKey_spec c photo key with ⟨hf, h⟩ | ⟨bucket, hf, h⟩
    · have hnot : key ∉ c.photoMap_.map Prod.fst := (mapFind_eq_none_iff _ _).mp hf
      rw [h]
      refine ⟨fun hne => absurd rfl hne, fun _ => ⟨rfl, ?_⟩⟩
      rw [mapAssign_of_not_mem _ _ _ hnot]
      simp [Collection.refs, List.flatMap_append]
    · rcases h with ⟨_, h⟩ | ⟨_, h⟩ | ⟨_, h⟩
      · rw [h]
        exact ⟨fun _ => rfl, fun ht => by cases ht⟩
      · rw [h]
        exact ⟨fun _ => rfl, fun ht => by cases ht⟩
      · rw [h]
        exact ⟨fun hne => absurd rfl hne, fun _ => ⟨rfl, mapPushBack_refs _ _ _ _ hf⟩⟩
  cases hc : Photo.ctor fs filename with
  | error e =>
    have h : c.AddPhotoReading read fs filename = (.error e, c) := by
      simp only [Collection.AddPhotoReading, hc]
    rw [h]
    exact ⟨fun _ => rfl, fun ht => by cases ht⟩
  | ok photo =>
    cases hk : photo.hashKey with
    | some key =>
      have h : c.AddPhotoReading read fs filename = c.AddPhotoWithKey photo key := by
        simp only [Collection.AddPhotoReading, hc, hk]
      rw [h]
      exact ⟨(hkey photo key).1, fun ht => ⟨photo, rfl, (hkey photo key).2 ht⟩⟩
    | none =>
      by_cases hne : photo.pixels_ = []
      · have h : c.AddPhotoReading read fs filename = (.error .undefined, c) := by
          simp only [Collection.AddPhotoReading, hc, hk, hne, List.isEmpty_nil, if_true]
        rw [h]
        exact ⟨fun _ => rfl, fun ht => by cases ht⟩
      · rw [AddPhotoReading_of_read read fs c filename photo hc hk hne]
        exact ⟨(hkey photo _).1, fun ht => ⟨photo, rfl, (hkey photo _).2 ht⟩⟩

/-- Every reachable collection satisfies the invariant. -/
theorem Reachable_inv {c : Collection} (h : Reachable c) : c.Inv := by
  induction h with
  | empty => exact Inv_empty
  | add read fs filename _ _ ih => exact Inv_AddPhotoReading ih read fs filename

/-! ## Lemmas on `AddPhoto` -/

/-- A constructed photo with at least `12288` samples has a hash key. -/
theorem hashKey_loaded (fs : FileSystem) (filename : String) (photo : Photo)
    (hc : Photo.ctor fs filename = .ok photo) (hlen : 12288 ≤ photo.pixels_.length) :
    photo.hashKey = some (bigDigest photo.pixels_) :=
  generate_big photo hlen (ctor_bound fs filename photo hc)

theorem AddPhoto_eq_insert (fs : FileSystem) (c : Collection) (filename : String)
    (photo : Photo) (key : Nat) (hc : Photo.ctor fs filename = .ok photo)
    (hk : photo.hashKey = some key) (hf : mapFind c.photoMap_ key = none) :
    c.AddPhoto fs filename
      = (.ok true, ⟨c.photoVec_ ++ [some photo],
          mapAssign c.photoMap_ key [some c.photoVec_.length]⟩) := by
  simp only [Collection.AddPhoto, hc, hk, hf, backGet_concat]

theorem AddPhoto_eq_push (fs : FileSystem) (c : Collection) (filename : String)
    (photo : Photo) (key : Nat) (bucket : List RawPtr)
    (hc : Photo.ctor fs filename = .ok photo) (hk : photo.hashKey = some key)
    (hf : mapFind c.photoMap_ key = some bucket)
    (hs : scanBucket c.photoVec_ photo bucket = some false) :
    c.AddPhoto fs filename
      = (.ok true, ⟨c.photoVec_ ++ [some photo],
          mapPushBack c.photoMap_ key (some c.photoVec_.length)⟩) := by
  simp only [Collection.AddPhoto, hc, hk, hf, hs, backGet_concat]

/-- A photo with a hash key that equals no stored photo is stored. -/
theorem AddPhoto_fresh {c : Collection} (hinv : c.Inv) (fs : FileSystem) (filename : String)
    (photo : Photo) (key : Nat) (hc : Photo.ctor fs filename = .ok photo)
    (hk : photo.hashKey = some key)
    (hne : ∀ (i : Nat) (q : Photo), c.photoVec_[i]? = some (some q) → Photo.eq q photo = false) :
    ∃ m', c.AddPhoto fs filename = (.ok true, ⟨c.photoVec_ ++ [some photo], m'⟩) := by
  rcases AddPhoto_spec fs c filename with ⟨e, he, _⟩ | ⟨photo', hc', h⟩
  · rw [hc] at he; cases he
  · rw [hc] at hc'
    cases hc'
    rcases h with ⟨hnone, _⟩ | ⟨key', hk', h⟩
    · rw [hk] at hnone; cases hnone
    · rcases h with ⟨_, h⟩ | ⟨bucket, hf, h⟩
      · exact ⟨_, h⟩
      · rcases h with ⟨hs, _⟩ | ⟨hs, _⟩ | ⟨_, h⟩
        · exact absurd hs (scanBucket_ne_none _ _ _ (Inv_valid_bucket hinv key' bucket hf))
        · obtain ⟨i, q, _, hq, heq⟩ := scanBucket_true _ _ _ hs
          rw [hne i q hq] at heq
          cases heq
        · exact ⟨_, h⟩

/-- A photo with a hash key that equals a stored photo is rejected. -/
theorem AddPhoto_dup {c : Collection} (hinv : c.Inv) (fs : FileSystem) (filename : String)
    (photo : Photo) (hc : Photo.ctor fs filename = .ok photo) (key : Nat)
    (hk : photo.hashKey = some key) (i : Nat) (q : Photo)
    (hq : c.photoVec_[i]? = some (some q)) (heq : Photo.eq q photo = true) :
    c.AddPhoto fs filename = (.ok false, c) := by
  have hkq : q.hashKey = some key := by
    rw [hashKey_of_eq q photo heq]
    exact hk
  obtain ⟨bucket, hfind, hib⟩ := Inv_bucket_of_key hinv i q key hq hkq
  rcases AddPhoto_spec fs c filename with ⟨e, he, _⟩ | ⟨photo', hc', h⟩
  · rw [hc] at he; cases he
  · rw [hc] at hc'
    cases hc'
    rcases h with ⟨hnone, _⟩ | ⟨key', hk', h⟩
    · rw [hk] at hnone; cases hnone
    · rw [hk] at hk'
      cases hk'
      rcases h with ⟨hf, _⟩ | ⟨bucket', hf, h⟩
      · rw [hfind] at hf; cases hf
      · rw [hfind] at hf
        cases hf
        rcases h with ⟨hs, _⟩ | ⟨_, h⟩ | ⟨hs, _⟩
        · exact absurd hs (scanBucket_ne_none _ _ _ (Inv_valid_bucket hinv key bucket hfind))
        · exact h
        · have := scanBucket_false _ _ _ hs i q hib hq
          rw [this] at heq
          cases heq

/-- A call that returns `true` appends the constructed photo to the store and one
pointer, to the new slot, to the index; the bucket that receives it is the one of
the hash key of the photo. -/
theorem AddPhoto_true (fs : FileSystem) (c : Collection) (filename : String)
    (h : (c.AddPhoto fs filename).1 = .ok true) :
    ∃ photo key, Photo.ctor fs filename = .ok photo ∧ photo.hashKey = some key
      ∧ (c.AddPhoto fs filename).2.photoVec_ = c.photoVec_ ++ [some photo]
      ∧ (c.AddPhoto fs filename).2.refs.Perm (c.refs ++ [some c.photoVec_.length])
      ∧ ∃ bucket, mapFind (c.AddPhoto fs filename).2.photoMap_ key = some bucket
          ∧ some c.photoVec_.length ∈ bucket := by
  rcases AddPhoto_spec fs c filename with ⟨e, _, h'⟩ | ⟨photo, hc, h'⟩
  · rw [h'] at h; cases h
  · rcases h' with ⟨_, h'⟩ | ⟨key, hk, h'⟩
    · rw [h'] at h; cases h
    · rcases h' with ⟨hf, h'⟩ | ⟨bucket, hf, h'⟩
      · have hnot : key ∉ c.photoMap_.map Prod.fst := (mapFind_eq_none_iff _ _).mp hf
        refine ⟨photo, key, hc, hk, by rw [h'], ?_, ?_⟩
        · rw [h', mapAssign_of_not_mem _ _ _ hnot]
          simp [Collection.refs, List.flatMap_append]
        · rw [h', mapAssign_of_not_mem _ _ _ hnot]
          exact ⟨[some c.photoVec_.length], mapFind_append_new _ _ _ hf,
            List.mem_singleton.mpr rfl⟩
      · rcases h' with ⟨_, h'⟩ | ⟨_, h'⟩ | ⟨_, h'⟩
        · rw [h'] at h; cases h
        · rw [h'] at h; cases h
        · refine ⟨photo, key, hc, hk, by rw [h'], ?_, ?_⟩
          · rw [h']
            exact mapPushBack_refs _ _ _ _ hf
          · rw [h']
            exact ⟨bucket ++ [some c.photoVec_.length], mapFind_mapPushBack _ _ _ _ hf,
              by simp⟩

/-! ## The example files -/

theorem ctor_tiny : Photo.ctor tinyFs "tiny.ppm" = .ok tinyPhoto := by
  decide

theorem hashKey_tiny : tinyPhoto.hashKey = none :=
  generate_small tinyPhoto (by decide)

theorem ctor_zero : Photo.ctor zeroFs "zero.ppm" = .ok zeroPhoto := by
  decide

theorem twoFs_a : twoFs "a.ppm" = some (ppm64Header ++ List.replicate 12288 0) := by
  unfold twoFs
  exact if_pos rfl

theorem twoFs_b : twoFs "b.ppm" = some (ppm64Header ++ List.replicate 12288 1) := by
  unfold twoFs
  exact if_neg (by decide)

theorem ctor_twoFs_a : Photo.ctor twoFs "a.ppm" = .ok (flatPhoto "a.ppm" 0) := by
  have h := ctor_ppm64 twoFs "a.ppm" (List.replicate 12288 0) twoFs_a
    (List.length_replicate _ _)
  rw [List.map_replicate] at h
  exact h

theorem ctor_twoFs_b : Photo.ctor twoFs "b.ppm" = .ok (flatPhoto "b.ppm" 1) := by
  have h := ctor_ppm64 twoFs "b.ppm" (List.replicate 12288 1) twoFs_b
    (List.length_replicate _ _)
  rw [List.map_replicate] at h
  exact h

theorem flatPhoto_length (filename : String) (v : Nat) :
    12288 ≤ (flatPhoto filename v).pixels_.length := by
  show 12288 ≤ (List.replicate 12288 v).length
  rw [List.length_replicate]

theorem flatPhoto_bound (filename : String) (v : Nat) (hv : v ≤ 255) :
    ∀ x ∈ (flatPhoto filename v).pixels_, x ≤ 255 := by
  intro x hx
  have hx' : x ∈ List.replicate 12288 v := hx
  rw [List.eq_of_mem_replicate hx']
  exact hv

theorem flatPhoto_ne : Photo.eq (flatPhoto "a.ppm" 0) (flatPhoto "b.ppm" 1) = false := by
  cases h : Photo.eq (flatPhoto "a.ppm" 0) (flatPhoto "b.ppm" 1) with
  | false => rfl
  | true =>
    have hp : List.replicate 12288 0 = List.replicate 12288 1 := ((Photo.eq_iff _ _).mp h).2.2
    have h0 : (0 : Nat) ∈ List.replicate 12288 0 := List.mem_replicate.mpr ⟨by decide, rfl⟩
    rw [hp] at h0
    exact absurd (List.eq_of_mem_replicate h0) (by decide)

/-- The digest of an image with enough samples that all have the same value is
`0`. -/
theorem generate_replicate (filename : String) (w h n v : Nat) (hn : 12288 ≤ n)
    (hv : v ≤ 255) :
    AHashStrategy.generate (some ⟨filename, w, h, List.replicate n v⟩) = some 0 := by
  have hlen : 12288 ≤ (List.replicate n v).length := by
    rw [List.length_replicate]
    exact hn
  have hb : ∀ x ∈ List.replicate n v, x ≤ 255 := by
    intro x hx
    rw [List.eq_of_mem_replicate hx]
    exact hv
  have h := generate_big ⟨filename, w, h, List.replicate n v⟩ hlen hb
  have hz : bigDigest (List.replicate n v) = 0 :=
    bigDigest_eq_zero _ v (fun i hi => segMean_replicate n v i (by omega))
  rw [h]
  exact congrArg some hz

/-- The hash key of an image whose samples all have the same value is `0`. -/
theorem hashKey_flat (filename : String) (v : Nat) (hv : v ≤ 255) :
    (flatPhoto filename v).hashKey = some 0 :=
  generate_replicate filename 64 64 12288 v (Nat.le_refl _) hv

theorem empty_no_equal (photo : Photo) :
    ∀ (i : Nat) (q : Photo), Collection.empty.photoVec_[i]? = some (some q) →
      Photo.eq q photo = false := by
  intro i q h
  simp [Collection.empty] at h

theorem AddPhoto_a : Collection.empty.AddPhoto twoFs "a.ppm" = (.ok true, oneColl) :=
  AddPhoto_eq_insert twoFs Collection.empty "a.ppm" (flatPhoto "a.ppm" 0) 0 ctor_twoFs_a
    (hashKey_flat "a.ppm" 0 (by decide)) rfl

theorem AddPhoto_b : oneColl.AddPhoto twoFs "b.ppm" = (.ok true, twoColl) := by
  have hscan : scanBucket oneColl.photoVec_ (flatPhoto "b.ppm" 1) [some 0] = some false := by
    simp only [oneColl, scanBucket, List.getElem?_cons_zero, flatPhoto_ne]
    rfl
  exact AddPhoto_eq_push twoFs oneColl "b.ppm" (flatPhoto "b.ppm" 1) 0 [some 0] ctor_twoFs_b
    (hashKey_flat "b.ppm" 1 (by decide)) rfl hscan

theorem oneColl_reachable : Reachable oneColl := by
  have heq : Collection.empty.AddPhotoReading 0 twoFs "a.ppm" = (.ok true, oneColl) := by
    rw [AddPhotoReading_of_key 0 twoFs Collection.empty "a.ppm" (flatPhoto "a.ppm" 0) 0
      ctor_twoFs_a (hashKey_flat "a.ppm" 0 (by decide))]
    exact AddPhoto_a
  have h := Reachable.add 0 twoFs "a.ppm" Reachable.empty (by
    rw [heq]
    intro hh
    cases hh)
  rw [heq] at h
  exact h

theorem twoColl_reachable : Reachable twoColl := by
  have heq : oneColl.AddPhotoReading 0 twoFs "b.ppm" = (.ok true, twoColl) := by
    rw [AddPhotoReading_of_key 0 twoFs oneColl "b.ppm" (flatPhoto "b.ppm" 1) 0
      ctor_twoFs_b (hashKey_flat "b.ppm" 1 (by decide))]
    exact AddPhoto_b
  have h := Reachable.add 0 twoFs "b.ppm" oneColl_reachable (by
    rw [heq]
    intro hh
    cases hh)
  rw [heq] at h
  exact h

/-- C2, as amended.  For every collection reachable through `AddPhoto` calls and
every loaded image with at least `12288` samples that is not equal to any image in
the store, `AddPhoto` returns `true` and `albumSize` increases by exactly `1`,
whether or not a bucket for the hash key of the image exists; and a second such
image with different content is accepted as well, also when it has the same hash
key as the first, so that the size increases by `2`. -/
theorem C2_no_false_rejection (fs : FileSystem) (c : Collection) (filename : String)
    (photo : Photo) (hr : Reachable c) (hc : Photo.ctor fs filename = .ok photo)
    (hlen : 12288 ≤ photo.pixels_.length)
    (hne : ∀ (i : Nat) (q : Photo), c.photoVec_[i]? = some (some q) →
      Photo.eq q photo = false) :
    (c.AddPhoto fs filename).1 = .ok true
      ∧ (c.AddPhoto fs filename).2.albumSize = c.albumSize + 1
      ∧ ∀ (fs' : FileSystem) (filename' : String) (photo' : Photo),
          Photo.ctor fs' filename' = .ok photo' → 12288 ≤ photo'.pixels_.length →
          Photo.eq photo photo' = false →
          (∀ (i : Nat) (q : Photo), c.photoVec_[i]? = some (some q) →
            Photo.eq q photo' = false) →
          ((c.AddPhoto fs filename).2.AddPhoto fs' filename').1 = .ok true
            ∧ ((c.AddPhoto fs filename).2.AddPhoto fs' filename').2.albumSize
                = c.albumSize + 2 := by
  have hinv := Reachable_inv hr
  obtain ⟨m', h⟩ := AddPhoto_fresh hinv fs filename photo _ hc
    (hashKey_loaded fs filename photo hc hlen) hne
  have hinv' : (c.AddPhoto fs filename).2.Inv := Inv_AddPhoto hinv fs filename
  rw [h] at hinv' ⊢
  refine ⟨rfl, by simp [Collection.albumSize], ?_⟩
  intro fs' filename' photo' hc' hlen' hdiff hne'
  have hne'' : ∀ (i : Nat) (q : Photo),
      (c.photoVec_ ++ [some photo])[i]? = some (some q) → Photo.eq q photo' = false := by
    intro i q hq
    rcases getElem?_concat_cases _ _ _ _ hq with ⟨_, hold⟩ | ⟨_, hnew⟩
    · exact hne' i q hold
    · cases hnew
      exact hdiff
  obtain ⟨m'', h'⟩ := AddPhoto_fresh hinv' fs' filename' photo' _ hc'
    (hashKey_loaded fs' filename' photo' hc' hlen') hne''
  rw [h']
  exact ⟨rfl, by simp [Collection.albumSize]⟩

/-- C2 on the example files: `"a.ppm"` and `"b.ppm"` are loaded, have `12288`
samples each, differ in every sample and share the hash key `0`; both are accepted
by the empty collection, the second one into the bucket of the first. -/
theorem C2_no_false_rejection_witness :
    Reachable Collection.empty
      ∧ Photo.ctor twoFs "a.ppm" = .ok (flatPhoto "a.ppm" 0)
      ∧ Photo.ctor twoFs "b.ppm" = .ok (flatPhoto "b.ppm" 1)
      ∧ 12288 ≤ (flatPhoto "a.ppm" 0).pixels_.length
      ∧ 12288 ≤ (flatPhoto "b.ppm" 1).pixels_.length
      ∧ (flatPhoto "b.ppm" 1).hashKey = (flatPhoto "a.ppm" 0).hashKey
      ∧ Photo.eq (flatPhoto "a.ppm" 0) (flatPhoto "b.ppm" 1) = false
      ∧ (Collection.empty.AddPhoto twoFs "a.ppm").1 = .ok true
      ∧ (Collection.empty.AddPhoto twoFs "a.ppm").2.albumSize = Collection.empty.albumSize + 1
      ∧ ((Collection.empty.AddPhoto twoFs "a.ppm").2.AddPhoto twoFs "b.ppm").1 = .ok true
      ∧ ((Collection.empty.AddPhoto twoFs "a.ppm").2.AddPhoto twoFs "b.ppm").2.albumSize
          = Collection.empty.albumSize + 2 :=
  have hkey : (flatPhoto "b.ppm" 1).hashKey = (flatPhoto "a.ppm" 0).hashKey :=
    (hashKey_flat "b.ppm" 1 (by decide)).trans (hashKey_flat "a.ppm" 0 (by decide)).symm
  have h := C2_no_false_rejection twoFs Collection.empty "a.ppm" (flatPhoto "a.ppm" 0)
    Reachable.empty ctor_twoFs_a (flatPhoto_length _ _) (empty_no_equal _)
  ⟨Reachable.empty, ctor_twoFs_a, ctor_twoFs_b, flatPhoto_length _ _, flatPhoto_length _ _,
    hkey, flatPhoto_ne, h.1, h.2.1,
    h.2.2 twoFs "b.ppm" (flatPhoto "b.ppm" 1) ctor_twoFs_b (flatPhoto_length _ _)
      flatPhoto_ne (empty_no_equal _)⟩

/-- C2 as stated fails on an image without samples.  The zero-dimension file
`"zero.ppm"` is loaded, its image has no samples and equals no image of the empty
store; `generate` reads beyond the end of the empty pixel vector, which has no
storage, and the call ends there: whatever a read could give, `AddPhoto` does not
return `true`, and the size does not grow. -/
theorem C2_counterexample :
    Photo.ctor zeroFs "zero.ppm" = .ok zeroPhoto
      ∧ zeroPhoto.pixels_ = []
      ∧ (∀ (i : Nat) (q : Photo), Collection.empty.photoVec_[i]? = some (some q) →
          Photo.eq q zeroPhoto = false)
      ∧ AHashStrategy.generate (some zeroPhoto) = none
      ∧ (∀ read : Nat,
          (Collection.empty.AddPhotoReading read zeroFs "zero.ppm").1 ≠ .ok true
            ∧ (Collection.empty.AddPhotoReading read zeroFs "zero.ppm").2.albumSize
                ≠ Collection.empty.albumSize + 1)
      ∧ (Collection.empty.AddPhoto zeroFs "zero.ppm").1 ≠ .ok true := by
  have hk : zeroPhoto.hashKey = none := generate_small zeroPhoto (by decide)
  refine ⟨ctor_zero, rfl, empty_no_equal _, hk, ?_, ?_⟩
  · intro read
    have h : Collection.empty.AddPhotoReading read zeroFs "zero.ppm"
        = (.error .undefined, Collection.empty) := by
      simp only [Collection.AddPhotoReading, ctor_zero, hk]
      rfl
    rw [h]
    exact ⟨by decide, by decide⟩
  · have h : Collection.empty.AddPhoto zeroFs "zero.ppm"
        = (.error .undefined, Collection.empty) := by
      simp only [Collection.AddPhoto, ctor_zero, hk]
    rw [h]
    decide

/-! ## C3: index completeness -/

/-- C5.  For every collection state and every `AddPhoto` call: a loader error is
passed on and an undefined fingerprint ends the call, both with the collection as
it was; whenever the call does not return `true` (the two failures above, or a
duplicate, for which it returns `false`) the store and the index are exactly as
before; and when it returns `true` the store has gained exactly one image, the
constructed one, at its end, and the index exactly one reference, the address of
that new slot. -/
theorem C5_add_atomic (fs : FileSystem) (c : Collection) (filename : String) :
    (∀ e, Photo.ctor fs filename = .error e → c.AddPhoto fs filename = (.error e, c))
      ∧ (∀ photo : Photo, Photo.ctor fs filename = .ok photo → photo.hashKey = none →
          c.AddPhoto fs filename = (.error .undefined, c))
      ∧ ((c.AddPhoto fs filename).1 ≠ .ok true → (c.AddPhoto fs filename).2 = c)
      ∧ ((c.AddPhoto fs filename).1 = .ok false → (c.AddPhoto fs filename).2 = c)
      ∧ ((c.AddPhoto fs filename).1 = .ok true →
          ∃ photo : Photo, Photo.ctor fs filename = .ok photo
            ∧ (c.AddPhoto fs filename).2.photoVec_ = c.photoVec_ ++ [some photo]
            ∧ (c.AddPhoto fs filename).2.refs.Perm (c.refs ++ [some c.photoVec_.length])
            ∧ (c.AddPhoto fs filename).2.photoVec_[c.photoVec_.length]? = some (some photo)) := by
  have hfail : (c.AddPhoto fs filename).1 ≠ .ok true → (c.AddPhoto fs filename).2 = c := by
    intro hne
    rcases AddPhoto_spec fs c filename with ⟨e, _, h⟩ | ⟨photo, _, h⟩
    · rw [h]
    · rcases h with ⟨_, h⟩ | ⟨key, _, h⟩
      · rw [h]
      · rcases h with ⟨_, h⟩ | ⟨bucket, _, h⟩
        · rw [h] at hne; exact absurd rfl hne
        · rcases h with ⟨_, h⟩ | ⟨_, h⟩ | ⟨_, h⟩
          · rw [h]
          · rw [h]
          · rw [h] at hne; exact absurd rfl hne
  refine ⟨?_, ?_, hfail, ?_, ?_⟩
  · intro e he
    simp only [Collection.AddPhoto, he]
  · intro photo hc hk
    simp only [Collection.AddPhoto, hc, hk]
  · intro h
    apply hfail
    rw [h]
    decide
  · intro h
    obtain ⟨photo, key, hc, _, hvec, hrefs, _⟩ := AddPhoto_true fs c filename h
    refine ⟨photo, hc, hvec, hrefs, ?_⟩
    rw [hvec]
    simp

/-- The `true` outcome of C5 on the example file `"a.ppm"`. -/
theorem C5_add_atomic_witness :
    (Collection.empty.AddPhoto twoFs "a.ppm").1 = .ok true
      ∧ ∃ photo : Photo, Photo.ctor twoFs "a.ppm" = .ok photo
      ∧ (Collection.empty.AddPhoto twoFs "a.ppm").2.photoVec_
          = Collection.empty.photoVec_ ++ [some photo]
      ∧ (Collection.empty.AddPhoto twoFs "a.ppm").2.refs.Perm
          (Collection.empty.refs ++ [some Collection.empty.photoVec_.length])
      ∧ (Collection.empty.AddPhoto twoFs "a.ppm").2.photoVec_[
          Collection.empty.photoVec_.length]? = some (some photo) :=
  ⟨by rw [AddPhoto_a],
    (C5_add_atomic twoFs Collection.empty "a.ppm").2.2.2.2 (by rw [AddPhoto_a])⟩

/-! ## C6: `GetPhoto` and its range check -/

/-- C6.  `GetPhoto(index)` fails with the out-of-range error if and only if
`index >= albumSize()`; in particular at `albumSize()` and `albumSize() + 1`; it
leaves the collection unchanged; and for every index below `albumSize()` of a
collection reachable through `AddPhoto` calls it returns the image stored at that
position, which is present. -/
theorem C6_get_range (c : Collection) (index : Nat) :
    ((c.GetPhoto index).1 = .error .out_of_range ↔ c.albumSize ≤ index)
      ∧ (c.GetPhoto c.albumSize).1 = .error .out_of_range
      ∧ (c.GetPhoto (c.albumSize + 1)).1 = .error .out_of_range
      ∧ (c.GetPhoto index).2 = c
      ∧ (Reachable c → index < c.albumSize →
          ∃ photo : Photo, c.photoVec_[index]? = some (some photo)
            ∧ c.GetPhoto index = (.ok photo, c)) := by
  have hoor : ∀ k : Nat, c.albumSize ≤ k → (c.GetPhoto k).1 = .error .out_of_range := by
    intro k hk
    have hnone : c.photoVec_[k]? = none := List.getElem?_eq_none hk
    simp only [Collection.GetPhoto, hnone]
  refine ⟨⟨?_, hoor index⟩, hoor _ (Nat.le_refl _), hoor _ (Nat.le_succ _), ?_, ?_⟩
  · intro h
    by_contra hlt
    have hlt' : index < c.photoVec_.length := by
      simp only [Collection.albumSize] at hlt
      omega
    have hsome : c.photoVec_[index]? = some (c.photoVec_[index]) :=
      List.getElem?_eq_getElem hlt'
    simp only [Collection.GetPhoto, hsome] at h
    cases hslot : c.photoVec_[index] with
    | none => simp [hslot] at h
    | some photo => simp [hslot] at h
  · unfold Collection.GetPhoto
    split <;> rfl
  · intro hr hlt
    obtain ⟨photo, hphoto⟩ := (Reachable_inv hr).slots index hlt
    exact ⟨photo, hphoto, by simp only [Collection.GetPhoto, hphoto]⟩

/-- The last part of C6 on the collection that holds the two example images. -/
theorem C6_get_range_witness :
    Reachable twoColl
      ∧ 1 < twoColl.albumSize
      ∧ ∃ photo : Photo, twoColl.photoVec_[1]? = some (some photo)
          ∧ twoColl.GetPhoto 1 = (.ok photo, twoColl) :=
  ⟨twoColl_reachable, by decide,
    (C6_get_range twoColl 1).2.2.2.2 twoColl_reachable (by decide)⟩

/-! ## C7: the store only grows at its end -/

/-- C7.  For every collection state with size `n` and every `AddPhoto` call that
returns `true`: afterwards `GetPhoto(i)` returns the same result as before for
every `i < n`, the store is the old store followed by the constructed image, and
`GetPhoto(n)` returns that image, which compares equal to the one just loaded. -/
theorem C7_append_only (fs : FileSystem) (c : Collection) (filename : String)
    (h : (c.AddPhoto fs filename).1 = .ok true) :
    (∀ i : Nat, i < c.albumSize →
        ((c.AddPhoto fs filename).2.GetPhoto i).1 = (c.GetPhoto i).1)
      ∧ ∃ photo : Photo, Photo.ctor fs filename = .ok photo
          ∧ (c.AddPhoto fs filename).2.photoVec_ = c.photoVec_ ++ [some photo]
          ∧ (c.AddPhoto fs filename).2.albumSize = c.albumSize + 1
          ∧ ∃ got : Photo, ((c.AddPhoto fs filename).2.GetPhoto c.albumSize).1 = .ok got
              ∧ Photo.eq got photo = true := by
  obtain ⟨photo, key, hc, _, hvec, _, _⟩ := AddPhoto_true fs c filename h
  constructor
  · intro i hi
    have hi' : i < c.photoVec_.length := hi
    simp only [Collection.GetPhoto, hvec, List.getElem?_append_left hi']
    cases c.photoVec_[i]? with
    | none => rfl
    | some slot => cases slot <;> rfl
  · refine ⟨photo, hc, hvec, ?_, photo, ?_, Photo.eq_refl photo⟩
    · simp [Collection.albumSize, hvec]
    · simp [Collection.GetPhoto, Collection.albumSize, hvec]

/-- C7 on a single successful add to the empty collection: `GetPhoto(0)` returns
an image equal to the content of `"a.ppm"`. -/
theorem C7_append_only_witness :
    (Collection.empty.AddPhoto twoFs "a.ppm").1 = .ok true
      ∧ ∃ photo : Photo, Photo.ctor twoFs "a.ppm" = .ok photo
      ∧ (Collection.empty.AddPhoto twoFs "a.ppm").2.photoVec_
          = Collection.empty.photoVec_ ++ [some photo]
      ∧ (Collection.empty.AddPhoto twoFs "a.ppm").2.albumSize = Collection.empty.albumSize + 1
      ∧ ∃ got : Photo,
          ((Collection.empty.AddPhoto twoFs "a.ppm").2.GetPhoto Collection.empty.albumSize).1
              = .ok got
            ∧ Photo.eq got photo = true :=
  ⟨by rw [AddPhoto_a],
    (C7_append_only twoFs Collection.empty "a.ppm" (by rw [AddPhoto_a])).2⟩

/-! ## C8: the digest -/

/-- C8.  For every image with at least `64 * 192 = 12288` samples, each in
`0..255`, `generate` returns a value below `2 ^ 64` whose bit `i`, for `i < 64` and
bit `0` least significant, is `1` if and only if `c_i > m`, with `c_i` the sum of the
samples `192 * i .. 192 * i + 191` divided by `192` and `m` the sum of
`c_0, ..., c_63` divided by `64`, both rounded down. -/
theorem C8_digest_definition (photo : Photo) (hlen : 12288 ≤ photo.pixels_.length)
    (hb : ∀ x ∈ photo.pixels_, x ≤ 255) :
    ∃ d : Nat, AHashStrategy.generate (some photo) = some d
      ∧ d < 2 ^ 64
      ∧ ∀ i : Nat, i < 64 →
          (d.testBit i = true ↔ specCell photo.pixels_ i > specMean photo.pixels_) := by
  refine ⟨bigDigest photo.pixels_, generate_big photo hlen hb, bigDigest_lt _, ?_⟩
  intro i hi
  rw [bigDigest_testBit photo.pixels_ hlen i hi]
  simp

/-- C8 on the example image whose samples are all `0`. -/
theorem C8_digest_definition_witness :
    12288 ≤ (flatPhoto "a.ppm" 0).pixels_.length
      ∧ (∀ x ∈ (flatPhoto "a.ppm" 0).pixels_, x ≤ 255)
      ∧ ∃ d : Nat, AHashStrategy.generate (some (flatPhoto "a.ppm" 0)) = some d
          ∧ d < 2 ^ 64
          ∧ ∀ i : Nat, i < 64 →
              (d.testBit i = true ↔ specCell (flatPhoto "a.ppm" 0).pixels_ i
                > specMean (flatPhoto "a.ppm" 0).pixels_) :=
  ⟨flatPhoto_length _ _, flatPhoto_bound _ _ (by decide),
    C8_digest_definition (flatPhoto "a.ppm" 0) (flatPhoto_length _ _)
      (flatPhoto_bound _ _ (by decide))⟩

/-! ## C9: the segments -/

theorem generateSegments_eq :
    generateSegments = (List.range 64).map (fun i => (192 * i, 192 * i + 192)) := by
  unfold generateSegments
  rw [constants_eq.1, constants_eq.2, segments_eq]

theorem mem_generateSegments (seg : Nat × Nat) :
    seg ∈ generateSegments ↔ ∃ i : Nat, i < 64 ∧ seg = (192 * i, 192 * i + 192) := by
  rw [generateSegments_eq, List.mem_map]
  constructor
  · rintro ⟨i, hi, rfl⟩
    exact ⟨i, List.mem_range.mp hi, rfl⟩
  · rintro ⟨i, hi, rfl⟩
    exact ⟨i, List.mem_range.mpr hi, rfl⟩

theorem generate_defined_length (photo : Photo)
    (h : AHashStrategy.generate (some photo) ≠ none) : 12288 ≤ photo.pixels_.length := by
  by_contra hlt
  exact h (generate_small photo (by omega))

/-- C9, as amended.  For every image that `generate` accepts, the `64` segments it
averages are contiguous (the first starts at position `0` and each next one where
the previous one ends), each exactly `CHANNEL_WIDTH * 8 * 8 = 192` samples long,
pairwise disjoint, inside the sample sequence, and together they cover exactly its
first `12288` positions: every position below `12288` belongs to exactly one
segment, and no position from `12288` on belongs to any. -/
theorem C9_segment_partition (photo : Photo)
    (hacc : AHashStrategy.generate (some photo) ≠ none) :
    generateSegments.length = 64
      ∧ (∀ i : Nat, i < 64 →
          generateSegments[i]? = some (CHANNEL_WIDTH * 8 * 8 * i, CHANNEL_WIDTH * 8 * 8 * (i + 1)))
      ∧ (∀ seg ∈ generateSegments, seg.2 = seg.1 + 192 ∧ seg.2 ≤ photo.pixels_.length)
      ∧ (∀ j : Nat, j < 12288 → ∃! seg, seg ∈ generateSegments ∧ seg.1 ≤ j ∧ j < seg.2)
      ∧ (∀ j : Nat, 12288 ≤ j → ∀ seg ∈ generateSegments, ¬ (seg.1 ≤ j ∧ j < seg.2)) := by
  have hlen := generate_defined_length photo hacc
  refine ⟨?_, ?_, ?_, ?_, ?_⟩
  · rw [generateSegments_eq]
    simp
  · intro i hi
    rw [generateSegments_eq]
    simp only [List.getElem?_map, List.getElem?_range hi, Option.map_some', CHANNEL_WIDTH]
    refine congrArg some (Prod.ext ?_ ?_)
    · show 192 * i = 3 * 8 * 8 * i
      omega
    · show 192 * i + 192 = 3 * 8 * 8 * (i + 1)
      omega
  · intro seg hseg
    obtain ⟨i, hi, rfl⟩ := (mem_generateSegments seg).mp hseg
    exact ⟨rfl, by dsimp only; omega⟩
  · intro j hj
    refine ⟨(192 * (j / 192), 192 * (j / 192) + 192), ⟨?_, ?_, ?_⟩, ?_⟩
    · exact (mem_generateSegments _).mpr ⟨j / 192, by omega, rfl⟩
    · dsimp only; omega
    · dsimp only; omega
    · rintro seg ⟨hseg, h1, h2⟩
      obtain ⟨i, hi, rfl⟩ := (mem_generateSegments seg).mp hseg
      dsimp only at h1 h2
      have : i = j / 192 := by omega
      rw [this]
  · intro j hj seg hseg
    obtain ⟨i, hi, rfl⟩ := (mem_generateSegments seg).mp hseg
    dsimp only
    omega

/-- C9 on the example image whose samples are all `0`. -/
theorem C9_segment_partition_witness :
    AHashStrategy.generate (some (flatPhoto "a.ppm" 0)) ≠ none
      ∧ (∀ seg ∈ generateSegments,
          seg.2 = seg.1 + 192 ∧ seg.2 ≤ (flatPhoto "a.ppm" 0).pixels_.length)
      ∧ (∀ j : Nat, j < 12288 → ∃! seg, seg ∈ generateSegments ∧ seg.1 ≤ j ∧ j < seg.2) :=
  have hacc : AHashStrategy.generate (some (flatPhoto "a.ppm" 0)) ≠ none := by
    rw [show AHashStrategy.generate (some (flatPhoto "a.ppm" 0)) = some 0 from
      hashKey_flat "a.ppm" 0 (by decide)]
    exact Option.some_ne_none 0
  ⟨hacc, (C9_segment_partition (flatPhoto "a.ppm" 0) hacc).2.2.1,
    (C9_segment_partition (flatPhoto "a.ppm" 0) hacc).2.2.2.1⟩

/-- C9 as stated fails on an image with more than `12288` samples: `generate`
accepts the 65 by 64 image, and its sample at position `12288` belongs to no
segment. -/
theorem C9_counterexample :
    AHashStrategy.generate (some widePhoto) = some 0
      ∧ 12288 < widePhoto.pixels_.length
      ∧ ∀ seg ∈ generateSegments, ¬ (seg.1 ≤ 12288 ∧ 12288 < seg.2) := by
  refine ⟨generate_replicate "wide.ppm" 65 64 12480 0 (by decide) (by decide), ?_, ?_⟩
  · show 12288 < (List.replicate 12480 0).length
    rw [List.length_replicate]
    decide
  · intro seg hseg
    obtain ⟨i, hi, rfl⟩ := (mem_generateSegments seg).mp hseg
    dsimp only
    omega

/-! ## C10: the precondition of `generate` -/

theorem mem_readIndices (j : Nat) : j ∈ readIndices ↔ j < 12288 := by
  unfold readIndices
  rw [List.mem_flatMap]
  constructor
  · rintro ⟨seg, hseg, hj⟩
    obtain ⟨i, hi, rfl⟩ := (mem_generateSegments seg).mp hseg
    rw [List.mem_range'_1] at hj
    dsimp only at hj
    omega
  · intro hj
    refine ⟨(192 * (j / 192), 192 * (j / 192) + 192),
      (mem_generateSegments _).mpr ⟨j / 192, by omega, rfl⟩, ?_⟩
    rw [List.mem_range'_1]
    dsimp only
    omega

/-- The list `readIndices` holds the reads of `generate`: on an image with samples
in `0..255`, `generate` returns a digest exactly when every position of the list
lies inside the pixel vector. -/
theorem generate_defined_iff (photo : Photo) (hb : ∀ x ∈ photo.pixels_, x ≤ 255) :
    AHashStrategy.generate (some photo) ≠ none
      ↔ ∀ j ∈ readIndices, j < photo.pixels_.length := by
  constructor
  · intro h j hj
    have h1 := generate_defined_length photo h
    have h2 := (mem_readIndices j).mp hj
    omega
  · intro h
    have h1 := h 12287 ((mem_readIndices 12287).mpr (by decide))
    rw [generate_big photo (by omega) hb]
    exact Option.some_ne_none _

/-- C10, as amended.  For every image whose sample count is at least
`64 * 192 = 12288`, with samples in `0..255` as the constructor produces them, every
sample position that `generate` reads is smaller than the sample count, and
`generate` returns a digest. -/
theorem C10_precondition (photo : Photo) (hlen : 12288 ≤ photo.pixels_.length)
    (hb : ∀ x ∈ photo.pixels_, x ≤ 255) :
    (∀ j ∈ readIndices, j < photo.pixels_.length)
      ∧ ∃ d : Nat, AHashStrategy.generate (some photo) = some d := by
  constructor
  · intro j hj
    have := (mem_readIndices j).mp hj
    omega
  · exact ⟨bigDigest photo.pixels_, generate_big photo hlen hb⟩

/-- C10, as amended, on the example image whose samples are all `1`. -/
theorem C10_precondition_witness :
    12288 ≤ (flatPhoto "b.ppm" 1).pixels_.length
      ∧ (∀ x ∈ (flatPhoto "b.ppm" 1).pixels_, x ≤ 255)
      ∧ (∀ j ∈ readIndices, j < (flatPhoto "b.ppm" 1).pixels_.length)
      ∧ ∃ d : Nat, AHashStrategy.generate (some (flatPhoto "b.ppm" 1)) = some d :=
  ⟨flatPhoto_length _ _, flatPhoto_bound _ _ (by decide),
    C10_precondition (flatPhoto "b.ppm" 1) (flatPhoto_length _ _)
      (flatPhoto_bound _ _ (by decide))⟩

/-- C10 as stated fails on the 8 by 8 image: its sample count
`8 * 8 * CHANNEL_WIDTH` is `192`, `generate` reads position `192`, which is not
smaller than the sample count, and returns no defined digest. -/
theorem C10_counterexample :
    eightPhoto.pixels_.length = eightPhoto.wid * eightPhoto.hei * CHANNEL_WIDTH
      ∧ CHANNEL_WIDTH * PhotoLite.wid * PhotoLite.hei ≤ eightPhoto.pixels_.length
      ∧ 192 ∈ readIndices
      ∧ ¬ (192 < eightPhoto.pixels_.length)
      ∧ AHashStrategy.generate (some eightPhoto) = none := by
  have hlen : eightPhoto.pixels_.length = 192 := by
    show (List.replicate 192 0).length = 192
    rw [List.length_replicate]
  refine ⟨?_, ?_, (mem_readIndices 192).mpr (by decide), ?_, ?_⟩
  · rw [hlen]
    decide
  · rw [hlen]
    decide
  · rw [hlen]
    decide
  · exact generate_small eightPhoto (by rw [hlen]; decide)

/-! ## C12: the digest respects image equality -/

/-- C12.  For all images `a` and `b` that compare equal under `operator==`, whatever
their file names, `generate` gives the same result; with enough samples (in
`0..255`) that result is one digest for both.  The case `b = a` is the repeated call
on one image.  Hence, for images with enough samples, in every reachable collection
that stores `a` (whatever was read beyond the end of smaller images on the way
there) the bucket that `AddPhoto` looks up for `b` holds the reference to `a`, and
`AddPhoto` rejects `b`. -/
theorem C12_digest_respects_equality (a b : Photo) (h : Photo.eq a b = true) :
    AHashStrategy.generate (some a) = AHashStrategy.generate (some b)
      ∧ (12288 ≤ a.pixels_.length → (∀ x ∈ a.pixels_, x ≤ 255) →
          ∃ d : Nat, AHashStrategy.generate (some a) = some d
            ∧ AHashStrategy.generate (some b) = some d)
      ∧ (12288 ≤ a.pixels_.length →
          ∀ (c : Collection) (i : Nat), Reachable c → c.photoVec_[i]? = some (some a) →
            (∃ (key : Nat) (bucket : List RawPtr), AHashStrategy.generate (some b) = some key
                ∧ mapFind c.photoMap_ key = some bucket ∧ some i ∈ bucket)
              ∧ ∀ (fs : FileSystem) (filename : String), Photo.ctor fs filename = .ok b →
                  c.AddPhoto fs filename = (.ok false, c)) := by
  have hgen : AHashStrategy.generate (some a) = AHashStrategy.generate (some b) :=
    hashKey_of_eq a b h
  refine ⟨hgen, ?_, ?_⟩
  · intro hlen hb
    refine ⟨bigDigest a.pixels_, generate_big a hlen hb, ?_⟩
    rw [← hgen]
    exact generate_big a hlen hb
  · intro hlen c i hr hslot
    have hinv := Reachable_inv hr
    have hka : AHashStrategy.generate (some a) = some (bigDigest a.pixels_) :=
      generate_big a hlen (hinv.bounded i a hslot)
    have hkb : AHashStrategy.generate (some b) = some (bigDigest a.pixels_) := by
      rw [← hgen]
      exact hka
    constructor
    · obtain ⟨bucket, hf, hib⟩ := Inv_bucket_of_key hinv i a _ hslot hka
      exact ⟨_, bucket, hkb, hf, hib⟩
    · intro fs filename hc
      exact AddPhoto_dup hinv fs filename b hc _ hkb i a hslot h

/-- C12 on two copies of the image whose samples are all `0`, loaded under
different file names. -/
theorem C12_digest_respects_equality_witness :
    Photo.eq (flatPhoto "a.ppm" 0) (flatPhoto "copy.ppm" 0) = true
      ∧ AHashStrategy.generate (some (flatPhoto "a.ppm" 0))
          = AHashStrategy.generate (some (flatPhoto "copy.ppm" 0)) :=
  ⟨(Photo.eq_iff _ _).mpr ⟨rfl, rfl, rfl⟩,
    (C12_digest_respects_equality (flatPhoto "a.ppm" 0) (flatPhoto "copy.ppm" 0)
      ((Photo.eq_iff _ _).mpr ⟨rfl, rfl, rfl⟩)).1⟩

/-! ## C13: the absent image -/

/-- C13.  Applied to the null pointer, `generate` returns the digest `0`; it ends
in no error. -/
theorem C13_absent_image :
    AHashStrategy.generate none = some 0 ∧ AHashStrategy.generate none ≠ none :=
  ⟨rfl, Option.some_ne_none 0⟩

/-! ## C17: the digest depends on the first 12288 samples only -/

theorem accumulate_congr :
    ∀ (n : Nat) (xs ys : List Nat) (init : Nat), xs.take n = ys.take n →
      accumulate xs n init = accumulate ys n init := by
  intro n
  induction n with
  | zero => intro xs ys init _; simp [accumulate]
  | succ n ih =>
    intro xs ys init h
    cases xs with
    | nil =>
      cases ys with
      | nil => rfl
      | cons y ys => simp at h
    | cons x xs =>
      cases ys with
      | nil => simp at h
      | cons y ys =>
        simp only [List.take_succ_cons, List.cons.injEq] at h
        obtain ⟨rfl, ht⟩ := h
        simp only [accumulate]
        exact ih xs ys _ ht

theorem cell_congr (a b : List Nat) (length : Nat) (seg : Nat × Nat)
    (h : (a.drop seg.1).take (seg.2 - seg.1) = (b.drop seg.1).take (seg.2 - seg.1)) :
    cell a length seg = cell b length seg := by
  simp only [cell, accumulate_congr _ _ _ 0 h]

theorem fillCells_congr (a b : List Nat) (length : Nat) :
    ∀ segs : List (Nat × Nat), (∀ seg ∈ segs, cell a length seg = cell b length seg) →
      fillCells a length segs = fillCells b length segs := by
  intro segs
  induction segs with
  | nil => intro _; rfl
  | cons seg rest ih =>
    intro h
    simp only [fillCells, h seg (List.mem_cons_self _ _),
      ih (fun t ht => h t (List.mem_cons_of_mem _ ht))]

theorem take_drop_take (a : List Nat) (N s k : Nat) (hsk : s + k ≤ N) :
    ((a.take N).drop s).take k = (a.drop s).take k := by
  rw [List.drop_take, List.take_take]
  congr 1
  omega

theorem take_eq_of_getElem? (a b : List Nat) (N : Nat)
    (h : ∀ j : Nat, j < N → a[j]? = b[j]?) : a.take N = b.take N := by
  apply List.ext_getElem?
  intro j
  by_cases hj : j < N
  · simp [List.getElem?_take, hj, h j hj]
  · simp [List.getElem?_take, hj]

/-- The result of `generate` is a function of the first `12288` samples. -/
theorem generate_congr_take (a b : Photo)
    (h : a.pixels_.take 12288 = b.pixels_.take 12288) :
    AHashStrategy.generate (some a) = AHashStrategy.generate (some b) := by
  have hfill : fillCells a.pixels_ 192 (segments 192 64 0 192)
      = fillCells b.pixels_ 192 (segments 192 64 0 192) := by
    apply fillCells_congr
    intro seg hseg
    rw [segments_eq] at hseg
    obtain ⟨i, hi, rfl⟩ := List.mem_map.mp hseg
    have hi' : i < 64 := List.mem_range.mp hi
    apply cell_congr
    have hk : 192 * i + 192 - 192 * i = 192 := by omega
    simp only [hk]
    rw [← take_drop_take a.pixels_ 12288 (192 * i) 192 (by omega),
      ← take_drop_take b.pixels_ 12288 (192 * i) 192 (by omega), h]
  simp only [AHashStrategy.generate, constants_eq.1, constants_eq.2, hfill]

/-- C17.  For all images `a` and `b` whose first `12288` samples agree position by
position, `generate` gives the same result, whatever the widths, heights, file
names and the samples from position `12288` on; for images with at least `12288`
samples, in `0..255`, that result is one digest for both. -/
theorem C17_digest_of_first_samples (a b : Photo)
    (h : ∀ j : Nat, j < 12288 → a.pixels_[j]? = b.pixels_[j]?) :
    AHashStrategy.generate (some a) = AHashStrategy.generate (some b)
      ∧ (12288 ≤ a.pixels_.length → 12288 ≤ b.pixels_.length →
          (∀ x ∈ a.pixels_, x ≤ 255) →
          ∃ d : Nat, AHashStrategy.generate (some a) = some d
            ∧ AHashStrategy.generate (some b) = some d) := by
  have hgen := generate_congr_take a b (take_eq_of_getElem? _ _ _ h)
  refine ⟨hgen, ?_⟩
  intro hlen _ hb
  refine ⟨bigDigest a.pixels_, generate_big a hlen hb, ?_⟩
  rw [← hgen]
  exact generate_big a hlen hb

/-- C17 on the 64 by 64 and the 65 by 64 image whose samples are all `0`: they
differ in width, file name and number of samples and have one digest. -/
theorem C17_digest_of_first_samples_witness :
    (∀ j : Nat, j < 12288 → (flatPhoto "a.ppm" 0).pixels_[j]? = widePhoto.pixels_[j]?)
      ∧ (flatPhoto "a.ppm" 0).wid ≠ widePhoto.wid
      ∧ AHashStrategy.generate (some (flatPhoto "a.ppm" 0))
          = AHashStrategy.generate (some widePhoto) :=
  have h : ∀ j : Nat, j < 12288 →
      (flatPhoto "a.ppm" 0).pixels_[j]? = widePhoto.pixels_[j]? := by
    intro j hj
    show (List.replicate 12288 0)[j]? = (List.replicate 12480 0)[j]?
    rw [List.getElem?_replicate, List.getElem?_replicate, if_pos hj, if_pos (by omega)]
  ⟨h, by decide, (C17_digest_of_first_samples (flatPhoto "a.ppm" 0) widePhoto h).1⟩

/-! ## C18: the digest never has all bits set -/

theorem length_mul_le_sum (l : List Nat) (m : Nat) (h : ∀ x ∈ l, m ≤ x) :
    l.length * m ≤ l.sum := by
  induction l with
  | nil => simp
  | cons x rest ih =>
    have hx : m ≤ x := h x (List.mem_cons_self _ _)
    have hr := ih (fun y hy => h y (List.mem_cons_of_mem _ hy))
    simp only [List.length_cons, List.sum_cons, Nat.succ_mul]
    omega

/-- Some element of a non-empty list is not above the rounded-down mean. -/
theorem exists_le_mean (l : List Nat) (hl : 0 < l.length) :
    ∃ x ∈ l, x ≤ l.sum / l.length := by
  by_contra hne
  have hall : ∀ x ∈ l, l.sum / l.length + 1 ≤ x := by
    intro x hx
    by_contra hx'
    exact hne ⟨x, hx, by omega⟩
  have h1 := length_mul_le_sum l _ hall
  have h2 := Nat.lt_mul_div_succ l.sum hl
  omega

/-- C18.  For every image with at least `12288` samples in `0..255`, `generate`
returns a digest of which at least one of the `64` bits is `0`, the bit of a cell
whose value is not strictly greater than the rounded-down mean of the cell values;
so the digest is never `2 ^ 64 - 1`. -/
theorem C18_digest_not_all_ones (photo : Photo) (hlen : 12288 ≤ photo.pixels_.length)
    (hb : ∀ x ∈ photo.pixels_, x ≤ 255) :
    ∃ d : Nat, AHashStrategy.generate (some photo) = some d
      ∧ (∃ i : Nat, i < 64 ∧ specCell photo.pixels_ i ≤ specMean photo.pixels_
          ∧ d.testBit i = false)
      ∧ d ≠ 2 ^ 64 - 1 := by
  have hbit : ∃ i : Nat, i < 64 ∧ specCell photo.pixels_ i ≤ specMean photo.pixels_
      ∧ (bigDigest photo.pixels_).testBit i = false := by
    obtain ⟨x, hx, hle⟩ := exists_le_mean ((List.range 64).map (specCell photo.pixels_))
      (by simp)
    obtain ⟨i, hi, rfl⟩ := List.mem_map.mp hx
    have hi' : i < 64 := List.mem_range.mp hi
    have hle' : specCell photo.pixels_ i ≤ specMean photo.pixels_ := by
      simpa [specMean] using hle
    refine ⟨i, hi', hle', ?_⟩
    rw [bigDigest_testBit photo.pixels_ hlen i hi']
    simp only [decide_eq_false_iff_not, gt_iff_lt, not_lt]
    exact hle'
  refine ⟨bigDigest photo.pixels_, generate_big photo hlen hb, hbit, ?_⟩
  intro hall
  obtain ⟨i, hi, _, hfalse⟩ := hbit
  rw [hall, Nat.testBit_two_pow_sub_one] at hfalse
  simp [hi] at hfalse

/-- C18 on the example image whose samples are all `1`. -/
theorem C18_digest_not_all_ones_witness :
    12288 ≤ (flatPhoto "b.ppm" 1).pixels_.length
      ∧ (∀ x ∈ (flatPhoto "b.ppm" 1).pixels_, x ≤ 255)
      ∧ ∃ d : Nat, AHashStrategy.generate (some (flatPhoto "b.ppm" 1)) = some d
          ∧ (∃ i : Nat, i < 64
              ∧ specCell (flatPhoto "b.ppm" 1).pixels_ i
                  ≤ specMean (flatPhoto "b.ppm" 1).pixels_
              ∧ d.testBit i = false)
          ∧ d ≠ 2 ^ 64 - 1 :=
  ⟨flatPhoto_length _ _, flatPhoto_bound _ _ (by decide),
    C18_digest_not_all_ones (flatPhoto "b.ppm" 1) (flatPhoto_length _ _)
      (flatPhoto_bound _ _ (by decide))⟩

/-! ## C19: the digest `0` -/

/-- C19.  For every image with at least `12288` samples in `0..255` whose `64` cell
values are all equal, `generate` returns `0`, the digest it returns for the null
pointer. -/
theorem C19_zero_digest_shared (photo : Photo) (hlen : 12288 ≤ photo.pixels_.length)
    (hb : ∀ x ∈ photo.pixels_, x ≤ 255)
    (heq : ∀ i : Nat, i < 64 → specCell photo.pixels_ i = specCell photo.pixels_ 0) :
    AHashStrategy.generate (some photo) = some 0
      ∧ AHashStrategy.generate (some photo) = AHashStrategy.generate none := by
  have hz : bigDigest photo.pixels_ = 0 := by
    apply bigDigest_eq_zero _ (specCell photo.pixels_ 0)
    intro i hi
    rw [segMean_eq_specCell photo.pixels_ i (by omega)]
    exact heq i hi
  have h := generate_big photo hlen hb
  rw [hz] at h
  exact ⟨h, h⟩

/-- C19 on an image whose samples all have the same value, `200`. -/
theorem C19_zero_digest_shared_witness :
    12288 ≤ (flatPhoto "grey.ppm" 200).pixels_.length
      ∧ (∀ x ∈ (flatPhoto "grey.ppm" 200).pixels_, x ≤ 255)
      ∧ (∀ i : Nat, i < 64 → specCell (flatPhoto "grey.ppm" 200).pixels_ i
          = specCell (flatPhoto "grey.ppm" 200).pixels_ 0)
      ∧ AHashStrategy.generate (some (flatPhoto "grey.ppm" 200)) = some 0
      ∧ AHashStrategy.generate (some (flatPhoto "grey.ppm" 200))
          = AHashStrategy.generate none :=
  have hcell : ∀ i : Nat, i < 64 → specCell (flatPhoto "grey.ppm" 200).pixels_ i = 200 := by
    intro i hi
    have h1 := segMean_eq_specCell (flatPhoto "grey.ppm" 200).pixels_ i
      (by have := flatPhoto_length "grey.ppm" 200; omega)
    rw [← h1]
    exact segMean_replicate 12288 200 i (by omega)
  have heq : ∀ i : Nat, i < 64 → specCell (flatPhoto "grey.ppm" 200).pixels_ i
      = specCell (flatPhoto "grey.ppm" 200).pixels_ 0 := by
    intro i hi
    rw [hcell i hi, hcell 0 (by decide)]
  ⟨flatPhoto_length _ _, flatPhoto_bound _ _ (by decide), heq,
    C19_zero_digest_shared (flatPhoto "grey.ppm" 200) (flatPhoto_length _ _)
      (flatPhoto_bound _ _ (by decide)) heq⟩

/-! ## C11: images with too few samples -/

/-- On an image with fewer than `12288` samples `generate` reads the position just
past the last sample, and its result is undefined. -/
theorem generate_small_reads_end (photo : Photo) (hlen : photo.pixels_.length < 12288) :
    photo.pixels_.length ∈ readIndices ∧ AHashStrategy.generate (some photo) = none :=
  ⟨(mem_readIndices _).mpr hlen, generate_small photo hlen⟩

/-- C11 fails on the code.  The 1 by 1 image `"tiny.ppm"` has `3` samples and the
image of the zero-dimension file `"zero.ppm"` has none; on each of them `generate`
reads the position just past the end of the sample sequence, the result is
undefined instead of a fingerprint error or a digest, and `AddPhoto` ends in that
undefined read. -/
theorem C11_small_image_out_of_bounds :
    (Photo.ctor tinyFs "tiny.ppm" = .ok tinyPhoto
      ∧ tinyPhoto.pixels_.length = 3
      ∧ 3 ∈ readIndices
      ∧ AHashStrategy.generate (some tinyPhoto) = none
      ∧ Collection.empty.AddPhoto tinyFs "tiny.ppm" = (.error .undefined, Collection.empty))
    ∧ (Photo.ctor zeroFs "zero.ppm" = .ok zeroPhoto
      ∧ zeroPhoto.pixels_.length = 0
      ∧ 0 ∈ readIndices
      ∧ AHashStrategy.generate (some zeroPhoto) = none
      ∧ Collection.empty.AddPhoto zeroFs "zero.ppm" = (.error .undefined, Collection.empty)) := by
  have ht := generate_small_reads_end tinyPhoto (by decide)
  have hz := generate_small_reads_end zeroPhoto (by decide)
  refine ⟨⟨ctor_tiny, rfl, ht.1, ht.2, ?_⟩, ⟨ctor_zero, rfl, hz.1, hz.2, ?_⟩⟩
  · simp only [Collection.AddPhoto, ctor_tiny, hashKey_tiny]
  · have hk : zeroPhoto.hashKey = none := hz.2
    simp only [Collection.AddPhoto, ctor_zero, hk]

/-! ## C15: truncated pixel data -/

/-- C15 fails on the code.  The file `"trunc.ppm"` has a well-formed header of a
2 by 1 image and only `4` of the `2 * 1 * CHANNEL_WIDTH = 6` bytes of pixel data;
the constructor returns an image, whose last two samples `2 3` are what the read
buffer still held of the first pixel. -/
theorem C15_truncated_accepted :
    truncFs "trunc.ppm"
        = some ([80, 54, 10] ++ decimal 2 ++ [32] ++ decimal 1 ++ [10, 50, 53, 53, 10]
            ++ [1, 2, 3, 4])
      ∧ [1, 2, 3, 4].length < 2 * 1 * CHANNEL_WIDTH
      ∧ Photo.ctor truncFs "trunc.ppm" = .ok ⟨"trunc.ppm", 2, 1, [1, 2, 3, 4, 2, 3]⟩ := by
  refine ⟨?_, by decide, by decide⟩
  have h2 : decimal 2 = [50] := by simp [decimal]
  have h1 : decimal 1 = [49] := by simp [decimal]
  rw [h2, h1]
  decide

/-! ## C16: the shape of a constructed image -/

/-- The dimensions of a constructed photo are results of `ifs >> w` and
`ifs >> h`, and its samples the result of the read loop. -/
theorem ctor_ok_parse (fs : FileSystem) (inputfile : String) (photo : Photo)
    (h : Photo.ctor fs inputfile = .ok photo) :
    ∃ (s1 s2 s3 : IfStream),
      (extractUInt64 s1).1 = some photo.wid
        ∧ (extractUInt64 s2).1 = some photo.hei
        ∧ readPixels ((photo.wid * photo.hei) % U64) [none, none, none] s3
            = some photo.pixels_ := by
  unfold Photo.ctor at h
  split at h
  · cases h
  · dsimp only at h
    split at h
    · cases h
    · split at h
      · next w h' hw hh =>
        split at h
        · cases h
        · next px hpx =>
          cases h
          exact ⟨_, _, _, hw, hh, hpx⟩
      · cases h

/-- A value stored by `ifs >> w` is a `uint64_t`. -/
theorem extractUInt64_lt (s : IfStream) (v : Nat) (h : (extractUInt64 s).1 = some v) :
    v < U64 := by
  unfold extractUInt64 at h
  dsimp only at h
  have hpos := U64_pos
  split_ifs at h
  all_goals
    have hv := Option.some.inj h
    subst hv
    first
      | exact U64_pos
      | exact Nat.mod_lt _ U64_pos
      | omega

theorem read_length (pixel : List (Option Nat)) (s : IfStream) (h : pixel.length = 3) :
    (read pixel s).1.length = 3 := by
  unfold read
  split
  · simp only [CHANNEL_WIDTH, List.length_append, List.length_map, List.length_take,
      List.length_drop, h]
    omega
  · exact h

theorem pushPixel_length : ∀ (pixel : List (Option Nat)) (px : List Nat),
    pushPixel pixel = some px → px.length = pixel.length := by
  intro pixel
  induction pixel with
  | nil => intro px h; simp [pushPixel] at h; subst h; rfl
  | cons b rest ih =>
    intro px h
    cases b with
    | none => simp [pushPixel] at h
    | some b =>
      simp only [pushPixel] at h
      cases hrest : pushPixel rest with
      | none => simp [hrest] at h
      | some out =>
        simp only [hrest, Option.some.injEq] at h
        subst h
        simp [ih out hrest]

/-- The read loop pushes `CHANNEL_WIDTH` samples per iteration. -/
theorem readPixels_length : ∀ (n : Nat) (pixel : List (Option Nat)) (s : IfStream)
    (out : List Nat), pixel.length = 3 → readPixels n pixel s = some out →
      out.length = 3 * n := by
  intro n
  induction n with
  | zero => intro pixel s out _ h; simp [readPixels] at h; subst h; rfl
  | succ n ih =>
    intro pixel s out hp h
    simp only [readPixels] at h
    have hlen := read_length pixel s hp
    cases hpx : pushPixel (read pixel s).1 with
    | none => simp [hpx] at h
    | some px =>
      cases hrest : readPixels n (read pixel s).1 (read pixel s).2 with
      | none => simp [hpx, hrest] at h
      | some rest =>
        simp only [hpx, hrest, Option.some.injEq] at h
        subst h
        have h1 := pushPixel_length _ _ hpx
        have h2 := ih _ _ _ hlen hrest
        simp only [List.length_append, h1, h2, hlen]
        ring

/-- The dimensions and the number of samples of a constructed photo. -/
theorem ctor_dims (fs : FileSystem) (inputfile : String) (photo : Photo)
    (h : Photo.ctor fs inputfile = .ok photo) :
    photo.wid < U64 ∧ photo.hei < U64
      ∧ photo.pixels_.length = 3 * ((photo.wid * photo.hei) % U64) := by
  obtain ⟨s1, s2, s3, hw, hh, hpx⟩ := ctor_ok_parse fs inputfile photo h
  exact ⟨extractUInt64_lt s1 _ hw, extractUInt64_lt s2 _ hh,
    readPixels_length _ [none, none, none] _ _ rfl hpx⟩

/-- C16, as amended.  Every image the constructor returns successfully, for every
header it accepts, has a pixel sequence whose length is a multiple of
`CHANNEL_WIDTH = 3`: it is `CHANNEL_WIDTH` times the product of width and height
reduced modulo `2 ^ 64`, hence exactly `width * height * CHANNEL_WIDTH` whenever
that product is below `2 ^ 64`.  Width and height are below `2 ^ 64`; they can be
`0`. -/
theorem C16_image_shape (fs : FileSystem) (inputfile : String) (photo : Photo)
    (h : Photo.ctor fs inputfile = .ok photo) :
    photo.pixels_.length = CHANNEL_WIDTH * ((photo.wid * photo.hei) % U64)
      ∧ photo.pixels_.length % CHANNEL_WIDTH = 0
      ∧ (photo.wid * photo.hei < U64 →
          photo.pixels_.length = photo.wid * photo.hei * CHANNEL_WIDTH)
      ∧ photo.wid < U64 ∧ photo.hei < U64 := by
  obtain ⟨hw, hh, hlen⟩ := ctor_dims fs inputfile photo h
  refine ⟨hlen, ?_, ?_, hw, hh⟩
  · rw [hlen]
    exact Nat.mul_mod_right 3 _
  · intro hlt
    rw [hlen, Nat.mod_eq_of_lt hlt, CHANNEL_WIDTH, Nat.mul_comm]

/-- C16, as amended, on the 1 by 1 image `"tiny.ppm"`. -/
theorem C16_image_shape_witness :
    Photo.ctor tinyFs "tiny.ppm" = .ok tinyPhoto
      ∧ tinyPhoto.pixels_.length = CHANNEL_WIDTH * ((tinyPhoto.wid * tinyPhoto.hei) % U64)
      ∧ tinyPhoto.pixels_.length % CHANNEL_WIDTH = 0
      ∧ (tinyPhoto.wid * tinyPhoto.hei < U64 →
          tinyPhoto.pixels_.length = tinyPhoto.wid * tinyPhoto.hei * CHANNEL_WIDTH)
      ∧ tinyPhoto.wid < U64 ∧ tinyPhoto.hei < U64 :=
  ⟨ctor_tiny, C16_image_shape tinyFs "tiny.ppm" tinyPhoto ctor_tiny⟩

/-- C16 as stated fails on two headers that the constructor accepts: for
`"P6\n0 0\n255\n"` it returns an image of width `0` and height `0`, and for
`"P6\n4294967296 4294967296\n255\n"` one of width and height `2 ^ 32` without
samples, whose length `0` is not `width * height * CHANNEL_WIDTH`. -/
theorem C16_counterexample :
    (Photo.ctor zeroFs "zero.ppm" = .ok zeroPhoto
      ∧ ¬ (0 < zeroPhoto.wid) ∧ ¬ (0 < zeroPhoto.hei))
    ∧ (Photo.ctor hugeFs "huge.ppm" = .ok ⟨"huge.ppm", 2 ^ 32, 2 ^ 32, []⟩
      ∧ ([] : List Nat).length ≠ 2 ^ 32 * 2 ^ 32 * CHANNEL_WIDTH) := by
  refine ⟨⟨ctor_zero, by decide, by decide⟩, ⟨by decide, by decide⟩⟩

/-! ## C14: what `save` writes, the constructor reads back -/

theorem isdigit_iff (c : Nat) : isdigit c = true ↔ 48 ≤ c ∧ c ≤ 57 := by
  simp [isdigit]

theorem isspace_of_isdigit (c : Nat) (h : isdigit c = true) : isspace c = false := by
  have hc := (isdigit_iff c).mp h
  cases hs : isspace c with
  | false => rfl
  | true =>
    simp only [isspace, Bool.or_eq_true, beq_iff_eq, Bool.and_eq_true, decide_eq_true_eq] at hs
    omega

theorem decimal_isdigit (n : Nat) : ∀ d ∈ decimal n, isdigit d = true := by
  intro d hd
  unfold decimal at hd
  split at hd
  · simp only [List.mem_singleton] at hd
    subst hd
    decide
  · obtain ⟨x, hx, rfl⟩ := List.mem_map.mp hd
    have hlt : x < 10 := Nat.digits_lt_base (by decide) (List.mem_reverse.mp hx)
    rw [isdigit_iff]
    omega

theorem decimal_ne_nil (n : Nat) : decimal n ≠ [] := by
  unfold decimal
  split
  · simp
  · next hn =>
    have hne : Nat.digits 10 n ≠ [] := Nat.digits_ne_nil_iff_ne_zero.mpr hn
    simpa using hne

theorem digitsValue_reverse_map (l : List Nat) :
    digitsValue (l.reverse.map (fun d => 48 + d)) = Nat.ofDigits 10 l := by
  induction l with
  | nil => rfl
  | cons d rest ih =>
    unfold digitsValue at ih ⊢
    rw [List.reverse_cons, List.map_append, List.foldl_append, ih, Nat.ofDigits_cons]
    simp only [List.map_cons, List.map_nil, List.foldl_cons, List.foldl_nil]
    omega

/-- Reading back the characters written for `n` gives `n`. -/
theorem digitsValue_decimal (n : Nat) : digitsValue (decimal n) = n := by
  unfold decimal
  split
  · next hn => subst hn; rfl
  · rw [digitsValue_reverse_map, Nat.ofDigits_digits]

/-- The extraction `ifs >> w` on one white-space character, a non-empty run of
digits with a value below `2 ^ 64`, and a character that is not a digit. -/
theorem extractUInt64_digits (sp : Nat) (ds : List Nat) (x : Nat) (rest : List Nat)
    (hsp : isspace sp = true) (hds : ds ≠ []) (hd : ∀ d ∈ ds, isdigit d = true)
    (hx : isdigit x = false) (hv : digitsValue ds < U64) :
    extractUInt64 ⟨sp :: (ds ++ x :: rest), true⟩
      = (some (digitsValue ds), ⟨x :: rest, true⟩) := by
  obtain ⟨d0, ds', rfl⟩ := List.exists_cons_of_ne_nil hds
  have hd0 : isdigit d0 = true := hd d0 (List.mem_cons_self _ _)
  have hd0' := (isdigit_iff d0).mp hd0
  have hs0 : isspace d0 = false := isspace_of_isdigit d0 hd0
  have hdrop : List.dropWhile isspace (sp :: (d0 :: ds' ++ x :: rest))
      = d0 :: ds' ++ x :: rest := by
    simp [List.dropWhile, hsp, hs0]
  have h45 : (d0 == 45) = false := by
    rw [beq_eq_false_iff_ne]
    omega
  have h43 : (d0 == 43) = false := by
    rw [beq_eq_false_iff_ne]
    omega
  have htake : List.takeWhile isdigit (d0 :: (ds' ++ x :: rest)) = d0 :: ds' := by
    rw [← List.cons_append, List.takeWhile_append_of_pos hd]
    simp [List.takeWhile, hx]
  have hdropd : List.dropWhile isdigit (d0 :: (ds' ++ x :: rest)) = x :: rest := by
    rw [← List.cons_append, List.dropWhile_append_of_pos hd]
    simp [List.dropWhile, hx]
  have hnot : ¬ (U64 ≤ digitsValue (d0 :: ds')) := by omega
  unfold extractUInt64
  simp only [hdrop, if_true]
  simp [h45, h43, hd0, htake, hdropd, hnot]

theorem savePixel_enough (pixels : List Nat) (i : Nat) : ∀ (k j : Nat),
    3 * i + j + k ≤ pixels.length →
      savePixel pixels i k j
        = some (((pixels.drop (3 * i + j)).take k).map (fun b => b % 256)) := by
  intro k
  induction k with
  | zero => intro j _; simp [savePixel]
  | succ k ih =>
    intro j hle
    have hlt : 3 * i + j < pixels.length := by omega
    have hget : pixels[CHANNEL_WIDTH * i + j]? = some (pixels[3 * i + j]) := by
      show pixels[3 * i + j]? = _
      exact List.getElem?_eq_getElem hlt
    have hih := ih (j + 1) (by omega)
    have hdrop : pixels.drop (3 * i + j) = pixels[3 * i + j] :: pixels.drop (3 * i + (j + 1)) :=
      List.drop_eq_getElem_cons hlt
    unfold savePixel
    rw [hget]
    dsimp only
    rw [hih, hdrop]
    simp

/-- The bytes written by the loops of `save` when the vector holds all the
positions the loops read. -/
theorem savePixels_enough (pixels : List Nat) : ∀ (n i : Nat),
    3 * (i + n) ≤ pixels.length →
      savePixels pixels n i
        = some (((pixels.drop (3 * i)).take (3 * n)).map (fun b => b % 256)) := by
  intro n
  induction n with
  | zero => intro i _; simp [savePixels]
  | succ n ih =>
    intro i hle
    have hpx := savePixel_enough pixels i 3 0 (by omega)
    have hih := ih (i + 1) (by omega)
    have h3 : 3 * (n + 1) = 3 + 3 * n := by ring
    have h4 : 3 * (i + 1) = 3 * i + 3 := by ring
    unfold savePixels
    rw [show CHANNEL_WIDTH = 3 from rfl, hpx]
    dsimp only
    rw [hih, h3, h4, List.take_add, ← List.drop_drop, List.map_append]
    rfl

theorem map_mod_of_bound (l : List Nat) (h : ∀ x ∈ l, x ≤ 255) :
    l.map (fun b => b % 256) = l := by
  induction l with
  | nil => rfl
  | cons a rest ih =>
    have ha : a ≤ 255 := h a (List.mem_cons_self _ _)
    have hr := ih (fun x hx => h x (List.mem_cons_of_mem _ hx))
    rw [List.map_cons, hr, Nat.mod_eq_of_lt (by omega)]

/-- The constructor on a file that holds the header `save` writes for a width and
a height below `2 ^ 64`, followed by exactly the samples of the image. -/
theorem ctor_saved (fs : FileSystem) (inputfile : String) (w h : Nat) (data : List Nat)
    (hfs : fs inputfile = some ([80, 54, 10] ++ decimal w ++ [32] ++ decimal h
      ++ [10, 50, 53, 53, 10] ++ data))
    (hw : w < U64) (hh : h < U64) (hlen : data.length = 3 * ((w * h) % U64)) :
    Photo.ctor fs inputfile = .ok ⟨inputfile, w, h, data.map (fun b => b % 256)⟩ := by
  have hbytes : [80, 54, 10] ++ decimal w ++ [32] ++ decimal h ++ [10, 50, 53, 53, 10] ++ data
      = 80 :: 54 :: 10 :: (decimal w ++ 32 :: (decimal h ++ 10 :: ([50, 53, 53] ++ 10 :: data))) := by
    simp
  have hstr : ∀ rest : List Nat, extractString ⟨80 :: 54 :: 10 :: rest, true⟩
      = ([80, 54], ⟨10 :: rest, true⟩) := by
    intro rest
    simp [extractString, isspace, List.dropWhile, List.takeWhile]
  have h1 := extractUInt64_digits 10 (decimal w) 32
    (decimal h ++ 10 :: ([50, 53, 53] ++ 10 :: data)) (by decide) (decimal_ne_nil w)
    (decimal_isdigit w) (by decide) (by rw [digitsValue_decimal]; exact hw)
  have h2 := extractUInt64_digits 32 (decimal h) 10 ([50, 53, 53] ++ 10 :: data) (by decide)
    (decimal_ne_nil h) (decimal_isdigit h) (by decide) (by rw [digitsValue_decimal]; exact hh)
  have h3 := extractUInt64_digits 10 [50, 53, 53] 10 data (by decide) (by decide) (by decide)
    (by decide) (by decide)
  rw [digitsValue_decimal] at h1 h2
  have hign : ignore 256 10 ⟨10 :: data, true⟩ = ⟨data, true⟩ := by
    simp [ignore, ignoreLoop]
  have hread := readPixels_enough ((w * h) % U64) [none, none, none] data rfl (by omega)
  have htake : data.take (3 * ((w * h) % U64)) = data := by
    apply List.take_of_length_le
    omega
  rw [htake] at hread
  unfold Photo.ctor
  rw [hfs, hbytes]
  dsimp only
  rw [hstr]
  dsimp only
  rw [h1]
  dsimp only
  rw [h2]
  dsimp only
  rw [h3]
  dsimp only
  rw [hign, hread]
  simp

/-- C14.  Save and load round trip.  For every image `photo` the constructor
returned successfully (from any file system and path) whose width and height are
not `0`, and every destination that can be opened for writing, `save` returns
normally and leaves at the destination exactly the bytes of the header
`"P6\n<width> <height>\n255\n"` (the width and the height in decimal) followed by
the samples of the image, one byte each; the constructor then reads that
destination successfully, and the image it returns compares equal to the original
under `operator==`, with the same width, the same height and the same pixel
sequence. -/
theorem C14_save_load_round_trip (fs : FileSystem) (writable : String → Bool)
    (inputfile outputfile : String) (photo : Photo)
    (hc : Photo.ctor fs inputfile = .ok photo)
    (hw : photo.wid ≠ 0) (hh : photo.hei ≠ 0) (hopen : writable outputfile = true) :
    ∃ fs1 : FileSystem, ∃ q : Photo,
      Photo.save writable fs photo outputfile = (.ok (), fs1)
        ∧ fs1 outputfile = some ([80, 54, 10] ++ decimal photo.wid ++ [32] ++ decimal photo.hei
            ++ [10, 50, 53, 53, 10] ++ photo.pixels_)
        ∧ Photo.ctor fs1 outputfile = .ok q
        ∧ Photo.eq q photo = true
        ∧ q.wid = photo.wid ∧ q.hei = photo.hei ∧ q.pixels_ = photo.pixels_ := by
  obtain ⟨hwl, hhl, hlen⟩ := ctor_dims fs inputfile photo hc
  have hb := ctor_bound fs inputfile photo hc
  have hmap := map_mod_of_bound photo.pixels_ hb
  have hsave : savePixels photo.pixels_ ((photo.wid * photo.hei) % U64) 0
      = some photo.pixels_ := by
    rw [savePixels_enough photo.pixels_ _ 0 (by omega), List.drop_zero,
      List.take_of_length_le (by omega), hmap]
  obtain ⟨fs1, hfs1⟩ : ∃ fs1 : FileSystem, fs1 = fun path =>
      if path = outputfile then
        some ([80, 54, 10] ++ decimal photo.wid ++ [32] ++ decimal photo.hei
          ++ [10, 50, 53, 53, 10] ++ photo.pixels_)
      else fs path := ⟨_, rfl⟩
  have hfile : fs1 outputfile
      = some ([80, 54, 10] ++ decimal photo.wid ++ [32] ++ decimal photo.hei
        ++ [10, 50, 53, 53, 10] ++ photo.pixels_) := by
    rw [hfs1]
    exact if_pos rfl
  have hload := ctor_saved fs1 outputfile photo.wid photo.hei photo.pixels_ hfile hwl hhl hlen
  rw [hmap] at hload
  refine ⟨fs1, ⟨outputfile, photo.wid, photo.hei, photo.pixels_⟩, ?_, hfile, hload, ?_,
    rfl, rfl, rfl⟩
  · unfold Photo.save
    rw [if_pos ⟨hw, hh⟩, if_pos hopen, hsave, hfs1]
  · exact (Photo.eq_iff _ _).mpr ⟨rfl, rfl, rfl⟩

theorem C14_save_load_round_trip_witness :
    Photo.ctor tinyFs "tiny.ppm" = .ok tinyPhoto ∧ tinyPhoto.wid ≠ 0 ∧ tinyPhoto.hei ≠ 0
      ∧ ∃ fs1 : FileSystem, ∃ q : Photo,
        Photo.save (fun _ => true) tinyFs tinyPhoto "out.ppm" = (.ok (), fs1)
          ∧ fs1 "out.ppm" = some ([80, 54, 10] ++ decimal tinyPhoto.wid ++ [32]
              ++ decimal tinyPhoto.hei ++ [10, 50, 53, 53, 10] ++ tinyPhoto.pixels_)
          ∧ Photo.ctor fs1 "out.ppm" = .ok q
          ∧ Photo.eq q tinyPhoto = true
          ∧ q.wid = tinyPhoto.wid ∧ q.hei = tinyPhoto.hei ∧ q.pixels_ = tinyPhoto.pixels_ :=
  ⟨ctor_tiny, by decide, by decide,
    C14_save_load_round_trip tinyFs (fun _ => true) "tiny.ppm" "out.ppm" tinyPhoto ctor_tiny
      (by decide) (by decide) rfl⟩

end Album
